import Mathlib

/-!
Arcade game: the image cache (`js/resources.js`) and the game loop (`js/engine.js`).

A shallow embedding of the two source files.

* `Resources` is the state of the closure of `resources.js` (`resourceCache`,
  `readyCallbacks`) together with the `Image` objects `_load` has created whose
  `load` event the browser has not fired yet.  Every function returns the new
  state and the calls it made to the outside, in order (`Ev`).
* `Engine` is the state of the closure of `engine.js` (`lastTime`).  The entities
  (`allEnemies`, `player`) are globals of `app.js`; they are a parameter (`App`)
  and their `update`/`render` methods are recorded as calls.
* `Page` puts both together with the browser: it fires `load` events, serves
  animation frames and answers `Date.now()` from an arbitrary clock.

Conventions.  An `Image` object is named by its creation index.  The cache is
a plain object: a key it does not own is read from `Object.prototype`.  A
ready-callback is either `init` of the engine or an outside function that does not
call back into `Resources`.  `Date.now()` is an integer time value (milliseconds);
a number is the rational it denotes, and subtraction and division round to the
nearest double (`roundDouble`).
-/

namespace Arcade

/-- An asset identifier (a key of `resourceCache`). -/
abbrev Url := String

/-- An entity of `app.js` (an enemy or the player), named by a number. -/
abbrev Entity := Nat

/-- What `resourceCache` holds under one of its own keys. -/
inductive Slot
  | pending            -- `false`: requested, not loaded yet
  | image (img : Nat)  -- the `Image` object number `img`
  deriving DecidableEq

/-- What reading `resourceCache[url]` gives. -/
inductive Value
  | undefined                -- no such property
  | slot (s : Slot)          -- the value of an own key
  | inherited (key : Url)    -- the property `key` of `Object.prototype`
  deriving DecidableEq

/-- A function passed to `onReady`. -/
inductive Callback
  | init               -- `init` of `engine.js`
  | other (id : Nat)   -- any other function
  deriving DecidableEq

/-- The argument of `load`: one identifier or an array of identifiers. -/
inductive UrlOrArr
  | url (u : Url)
  | arr (urls : List Url)
  deriving DecidableEq

/-- A call made to the outside, as it appears in a trace. -/
inductive Ev
  | fetch (img : Nat) (url : Url)              -- `img = new Image(); ...; img.src = url`
  | call (func : Callback)                     -- `func()` of a ready-callback
  | enemyUpdate (enemy : Entity) (dt : Option ℚ) -- `enemy.update(dt)`, `none` is `NaN`
  | playerUpdate (player : Entity)             -- `player.update()`
  | clearRect (x y w h : Nat)                  -- `ctx.clearRect(x, y, w, h)`
  | drawImage (image : Value) (x y : Nat)      -- `ctx.drawImage(image, x, y)`
  | enemyRender (enemy : Entity)               -- `enemy.render()`
  | playerRender (player : Entity)             -- `player.render()`
  | requestAnimationFrame                      -- `win.requestAnimationFrame(main)`
  deriving DecidableEq

/-! ## `js/resources.js` -/

/-- The closure state of `resources.js`, and the images in flight. -/
structure Resources where
  /-- The object `resourceCache`: its own keys with their values. -/
  resourceCache : List (Url × Slot) := []
  /-- The array `readyCallbacks`. -/
  readyCallbacks : List Callback := []
  /-- The number of `Image` objects created so far. -/
  images : Nat := 0
  /-- The images whose `src` is set and whose `load` event has not fired, each
  with the `url` its `onload` closure captured. -/
  loading : List (Nat × Url) := []
  deriving DecidableEq

/-- The names of the properties a plain object inherits from `Object.prototype`;
read through an object, each is a function or an object. -/
def objectPrototypeKeys : List Url :=
  [ "constructor", "__defineGetter__", "__defineSetter__", "hasOwnProperty",
    "__lookupGetter__", "__lookupSetter__", "isPrototypeOf", "propertyIsEnumerable",
    "toString", "valueOf", "__proto__", "toLocaleString" ]

/-- The read `resourceCache[url]`: the value of the own key, else the property
inherited from `Object.prototype`, else `undefined`. -/
def read (rc : List (Url × Slot)) (url : Url) : Value :=
  match rc.lookup url with
  | some s => Value.slot s
  | none => if url ∈ objectPrototypeKeys then Value.inherited url else Value.undefined

/-- JavaScript truthiness of a value read from the cache: `undefined` and `false`
are falsy; an `Image` object and an inherited function or object are truthy. -/
def truthy : Value → Bool
  | Value.slot (Slot.image _) => true
  | Value.inherited _ => true
  | Value.slot Slot.pending => false
  | Value.undefined => false

/-- The assignment `resourceCache[url] = v`: overwrites an own key in place,
adds a new key at the end.  (`_load` returns before it for a key that reads as
an inherited property, so no such key is ever assigned.) -/
def assign : List (Url × Slot) → Url → Slot → List (Url × Slot)
  | [], url, v => [(url, v)]
  | (k, x) :: rest, url, v =>
    if k = url then (k, v) :: rest else (k, x) :: assign rest url v

namespace Resources

/-- The function `get(url)`: `resourceCache[url]`. -/
def get (r : Resources) (url : Url) : Value :=
  read r.resourceCache url

/-- The function `isReady()`: the `for ... in` loop over the keys of
`resourceCache`, of which `hasOwnProperty` keeps the own ones. -/
def isReady (r : Resources) : Bool :=
  r.resourceCache.foldl
    (fun ready kv => if !truthy (Value.slot kv.2) then false else ready) true

/-- The `img.onload` handler that `_load(url)` installs on `img`. -/
def onload (r : Resources) (url : Url) (img : Nat) : Resources × List Ev :=
  let r1 := { r with resourceCache := assign r.resourceCache url (Slot.image img) }
  if isReady r1 then
    (r1, r1.readyCallbacks.foldl (fun tr func => tr ++ [Ev.call func]) [])
  else
    (r1, [])

/-- The private function `_load(url)`.  (Its return value is dropped by `load`.) -/
def _load (r : Resources) (url : Url) : Resources × List Ev :=
  if truthy (read r.resourceCache url) then
    (r, [])
  else
    let img := r.images
    ({ r with
        images := r.images + 1
        resourceCache := assign r.resourceCache url Slot.pending
        loading := r.loading ++ [(img, url)] },
     [Ev.fetch img url])

/-- The function `load(urlOrArr)`. -/
def load (r : Resources) : UrlOrArr → Resources × List Ev
  | UrlOrArr.arr urls =>
    urls.foldl
      (fun (acc : Resources × List Ev) url =>
        ((_load acc.1 url).1, acc.2 ++ (_load acc.1 url).2))
      (r, [])
  | UrlOrArr.url u => _load r u

/-- The function `onReady(func)`. -/
def onReady (r : Resources) (func : Callback) : Resources × List Ev :=
  ({ r with readyCallbacks := r.readyCallbacks ++ [func] }, [])

end Resources

/-- What can happen to the cache: a call of `load` or `onReady`, or the browser
firing the `load` event of an image. -/
inductive Op
  | load (urlOrArr : UrlOrArr)
  | onReady (func : Callback)
  | imgLoad (img : Nat)
  deriving DecidableEq

namespace Resources

/-- One operation.  The `load` event of an image fires at most once, and only
for an image in flight. -/
def step (r : Resources) : Op → Resources × List Ev
  | Op.load a => load r a
  | Op.onReady f => onReady r f
  | Op.imgLoad img =>
    match r.loading.lookup img with
    | some url => onload { r with loading := r.loading.filter (fun h => h.1 != img) } url img
    | none => (r, [])

/-- A sequence of operations, with the trace of all calls made. -/
def run (r : Resources) : List Op → Resources × List Ev
  | [] => (r, [])
  | op :: ops => ((run (step r op).1 ops).1, (step r op).2 ++ (run (step r op).1 ops).2)

end Resources

/-! ## `js/engine.js` -/

/-- The globals of `app.js` the engine reads. -/
structure App where
  /-- The array `allEnemies`. -/
  allEnemies : List Entity
  /-- The object `player`. -/
  player : Entity
  deriving DecidableEq

/-- The closure state of `engine.js`. -/
structure Engine where
  /-- The variable `lastTime`; `none` is `undefined` (before `init`). -/
  lastTime : Option Int := none
  deriving DecidableEq

/-- The integer nearest to a rational, a tie going to the even one. -/
def roundHalfEven (q : ℚ) : Int :=
  if Int.fract q < 1 / 2 then ⌊q⌋
  else if 1 / 2 < Int.fract q then ⌊q⌋ + 1
  else if ⌊q⌋ % 2 = 0 then ⌊q⌋ else ⌊q⌋ + 1

/-- The double nearest to a rational (IEEE 754 binary64, round to nearest, ties
to even): 53 significant bits.  Overflow and subnormal numbers do not occur on
the differences of time values and their thousandths. -/
def roundDouble (q : ℚ) : ℚ :=
  if q = 0 then 0
  else (roundHalfEven (q / 2 ^ (Int.log 2 |q| - 52)) : ℚ) * 2 ^ (Int.log 2 |q| - 52)

/-- The subtraction `a - b` of two numbers. -/
def fsub (a b : ℚ) : ℚ := roundDouble (a - b)

/-- The division `a / b` of two numbers, `b` not zero. -/
def fdiv (a b : ℚ) : ℚ := roundDouble (a / b)

/-- The value of `canvas.width`. -/
def canvasWidth : Nat := 505

/-- The value of `canvas.height`. -/
def canvasHeight : Nat := 606

namespace Engine

/-- The function `updateEntities(dt)`. -/
def updateEntities (app : App) (dt : Option ℚ) : List Ev :=
  app.allEnemies.foldl (fun tr enemy => tr ++ [Ev.enemyUpdate enemy dt]) []
    ++ [Ev.playerUpdate app.player]

/-- The function `update(dt)`. -/
def update (app : App) (dt : Option ℚ) : List Ev :=
  updateEntities app dt

/-- The function `renderEntities()`. -/
def renderEntities (app : App) : List Ev :=
  app.allEnemies.foldl (fun tr enemy => tr ++ [Ev.enemyRender enemy]) []
    ++ [Ev.playerRender app.player]

/-- The array `rowImages` of `render`. -/
def rowImages : List Url :=
  [ "images/water-block.png",
    "images/stone-block.png",
    "images/stone-block.png",
    "images/stone-block.png",
    "images/grass-block.png",
    "images/grass-block.png" ]

/-- The constant `numRows` of `render`. -/
def numRows : Nat := 6

/-- The constant `numCols` of `render`. -/
def numCols : Nat := 5

/-- The function `render()`: `clearRect`, the two nested `for` loops, then
`renderEntities()`.  An index outside `rowImages` reads `undefined`, which as a
key is the string "undefined". -/
def render (app : App) (res : Resources) : List Ev :=
  let tr0 := [Ev.clearRect 0 0 canvasWidth canvasHeight]
  let tr1 := (List.range numRows).foldl
    (fun tr row =>
      (List.range numCols).foldl
        (fun tr col =>
          tr ++ [Ev.drawImage (res.get (rowImages.getD row "undefined")) (col * 101) (row * 83)])
        tr)
    tr0
  tr1 ++ renderEntities app

/-- The identifiers that `engine.js` passes to `Resources.load` when it is run. -/
def assets : List Url :=
  [ "images/stone-block.png", "images/water-block.png", "images/grass-block.png",
    "images/enemy-bug.png", "images/char-boy.png" ]

/-- The function `reset()`: a no-op. -/
def reset : List Ev := []

/-- The function `main()`, where `now` is what its `Date.now()` returns. -/
def main (app : App) (res : Resources) (s : Engine) (now : Int) : Engine × List Ev :=
  let dt : Option ℚ := s.lastTime.map (fun lastTime => fdiv (fsub now lastTime) 1000)
  let tr := update app dt ++ render app res
  ({ s with lastTime := some now }, tr ++ [Ev.requestAnimationFrame])

/-- The function `init()`, where `t0` is what its `Date.now()` returns and `t1`
what the one of the `main()` it calls returns. -/
def init (app : App) (res : Resources) (s : Engine) (t0 t1 : Int) : Engine × List Ev :=
  let tr := reset
  let s1 := { s with lastTime := some t0 }
  ((main app res s1 t1).1, tr ++ (main app res s1 t1).2)

end Engine

/-! ## The page: both scripts and the browser -/

/-- The states of both scripts, the animation frames requested and not yet served, and
the number of `Date.now()` readings taken so far. -/
structure Page where
  /-- The state of `resources.js`. -/
  res : Resources := {}
  /-- The state of `engine.js`. -/
  eng : Engine := {}
  /-- The requests `requestAnimationFrame(main)` not yet served. -/
  frames : Nat := 0
  /-- The number of calls of `Date.now()` so far. -/
  reads : Nat := 0
  deriving DecidableEq

/-- What can happen on the page: an operation on the cache, or the browser
serving an animation frame. -/
inductive PageOp
  | res (op : Op)
  | frame
  deriving DecidableEq

namespace Page

/-- A ready-callback is called: `init` runs `init()` of the engine (two clock
readings), any other function is recorded only. -/
def invoke (clock : Nat → Int) (app : App) (p : Page) : Callback → Page × List Ev
  | Callback.init =>
    let out := Engine.init app p.res p.eng (clock p.reads) (clock (p.reads + 1))
    ({ p with
        eng := out.1
        reads := p.reads + 2
        frames := p.frames + out.2.count Ev.requestAnimationFrame },
     Ev.call Callback.init :: out.2)
  | Callback.other id => (p, [Ev.call (Callback.other id)])

/-- Carries out one entry of the trace of the cache: a call `func()` runs the
function, any other entry is kept as it is. -/
def perform (clock : Nat → Int) (app : App) (acc : Page × List Ev) : Ev → Page × List Ev
  | Ev.call func => ((invoke clock app acc.1 func).1, acc.2 ++ (invoke clock app acc.1 func).2)
  | ev => (acc.1, acc.2 ++ [ev])

/-- One step of the page.  The calls `func()` the cache makes are carried out in
order; a served frame calls `main()`. -/
def step (clock : Nat → Int) (app : App) (p : Page) : PageOp → Page × List Ev
  | PageOp.res op =>
    (Resources.step p.res op).2.foldl (perform clock app)
      ({ p with res := (Resources.step p.res op).1 }, [])
  | PageOp.frame =>
    if p.frames = 0 then (p, [])
    else
      let out := Engine.main app p.res p.eng (clock p.reads)
      ({ p with
          eng := out.1
          reads := p.reads + 1
          frames := p.frames - 1 + out.2.count Ev.requestAnimationFrame },
       out.2)

/-- A sequence of steps of the page, with the trace of all calls made. -/
def run (clock : Nat → Int) (app : App) (p : Page) : List PageOp → Page × List Ev
  | [] => (p, [])
  | op :: ops =>
    ((run clock app (step clock app p op).1 ops).1,
     (step clock app p op).2 ++ (run clock app (step clock app p op).1 ops).2)

end Page

/-- The last two statements of `engine.js`: `Resources.load([...])` and
`Resources.onReady(init)`. -/
def Engine.boot : List PageOp :=
  [PageOp.res (Op.load (UrlOrArr.arr Engine.assets)), PageOp.res (Op.onReady Callback.init)]

/-- The calls that belong to the game loop: entity updates, drawing, entity
renders, frame requests. -/
def Ev.isLoop : Ev → Bool
  | Ev.fetch _ _ => false
  | Ev.call _ => false
  | _ => true

/-- The own keys of `resourceCache`. -/
def Resources.keys (r : Resources) : List Url := r.resourceCache.map Prod.fst

/-- The identifiers passed to `load` by a sequence of operations. -/
def requested : List Op → List Url
  | [] => []
  | Op.load (UrlOrArr.url u) :: ops => u :: requested ops
  | Op.load (UrlOrArr.arr us) :: ops => us ++ requested ops
  | Op.onReady _ :: ops => requested ops
  | Op.imgLoad _ :: ops => requested ops

/-- Whether an operation is a load completion in this state: the `load` event of
an image in flight. -/
def Resources.completes (r : Resources) : Op → Bool
  | Op.imgLoad img => (r.loading.lookup img).isSome
  | Op.load _ => false
  | Op.onReady _ => false

/-- The keys of the cache are distinct, and every image in flight was requested
under a key of the cache. -/
def Resources.WellFormed (r : Resources) : Prop :=
  r.keys.Nodup ∧ ∀ h ∈ r.loading, h.2 ∈ r.keys

/-- A cache with two images requested, the second one loaded, and two callbacks
registered. -/
def Resources.sample : Resources :=
  (Resources.run {}
    [Op.load (UrlOrArr.arr ["a.png", "b.png"]), Op.onReady Callback.init,
     Op.onReady (Callback.other 1), Op.imgLoad 1]).1

/-- The cells of the grid as pairs (row, column), in row-major order. -/
def cellsRowMajor : List (Nat × Nat) :=
  [ (0, 0), (0, 1), (0, 2), (0, 3), (0, 4),
    (1, 0), (1, 1), (1, 2), (1, 3), (1, 4),
    (2, 0), (2, 1), (2, 2), (2, 3), (2, 4),
    (3, 0), (3, 1), (3, 2), (3, 3), (3, 4),
    (4, 0), (4, 1), (4, 2), (4, 3), (4, 4),
    (5, 0), (5, 1), (5, 2), (5, 3), (5, 4) ]

/-- The tile of a row: water for row 0, stone for rows 1 to 3, grass below. -/
def rowTile (row : Nat) : Url :=
  if row = 0 then "images/water-block.png"
  else if row ≤ 3 then "images/stone-block.png"
  else "images/grass-block.png"

/-- The background draw calls. -/
def Ev.isDraw : Ev → Bool
  | Ev.drawImage _ _ _ => true
  | _ => false

/-- The update calls on entities. -/
def Ev.isUpdate : Ev → Bool
  | Ev.enemyUpdate _ _ => true
  | Ev.playerUpdate _ => true
  | _ => false

/-- The calls `render` makes: clearing, drawing, entity renders. -/
def Ev.isRender : Ev → Bool
  | Ev.clearRect _ _ _ _ => true
  | Ev.drawImage _ _ _ => true
  | Ev.enemyRender _ => true
  | Ev.playerRender _ => true
  | _ => false

/-! ## Lists and the cache object -/

theorem foldl_snoc {α : Type} (g : α → Ev) (l : List α) (tr : List Ev) :
    l.foldl (fun tr x => tr ++ [g x]) tr = tr ++ l.map g := by
  induction l generalizing tr with
  | nil => simp
  | cons a l ih => simp [ih]

theorem truthy_slot_iff (v : Slot) :
    truthy (Value.slot v) = true ↔ ∃ img, v = Slot.image img := by
  cases v <;> simp [truthy]

theorem read_of_lookup (rc : List (Url × Slot)) (u : Url) (v : Slot)
    (h : rc.lookup u = some v) : read rc u = Value.slot v := by
  simp [read, h]

theorem read_eq_slot_iff (rc : List (Url × Slot)) (u : Url) (v : Slot) :
    read rc u = Value.slot v ↔ rc.lookup u = some v := by
  constructor
  · intro h
    unfold read at h
    split at h
    · next s hs => rw [hs]; injection h with h; rw [h]
    · split at h <;> cases h
  · exact read_of_lookup rc u v

theorem truthy_read_iff (rc : List (Url × Slot)) (u : Url) :
    truthy (read rc u) = true
      ↔ (∃ img, rc.lookup u = some (Slot.image img))
        ∨ (rc.lookup u = none ∧ u ∈ objectPrototypeKeys) := by
  unfold read
  split
  · next s hs =>
    rw [hs]
    cases s <;> simp [truthy]
  · next hs =>
    rw [hs]
    split
    · next hk => simp [truthy, hk]
    · next hk => simp [truthy, hk]

theorem foldl_ready (l : List (Url × Slot)) (b : Bool) :
    l.foldl (fun ready kv => if !truthy (Value.slot kv.2) then false else ready) b
      = (b && l.all (fun kv => truthy (Value.slot kv.2))) := by
  induction l generalizing b with
  | nil => simp
  | cons kv l ih =>
    simp only [List.foldl_cons, List.all_cons, ih]
    cases truthy (Value.slot kv.2) <;> simp

theorem Resources.isReady_eq_all (r : Resources) :
    r.isReady = r.resourceCache.all (fun kv => truthy (Value.slot kv.2)) := by
  unfold Resources.isReady
  rw [foldl_ready]
  simp

theorem Resources.isReady_iff (r : Resources) :
    r.isReady = true ↔ ∀ kv ∈ r.resourceCache, ∃ img, kv.2 = Slot.image img := by
  simp only [Resources.isReady_eq_all, List.all_eq_true, truthy_slot_iff]

theorem Resources.isReady_false_iff (r : Resources) :
    r.isReady = false ↔ ∃ kv ∈ r.resourceCache, kv.2 = Slot.pending := by
  rw [← Bool.not_eq_true, Resources.isReady_iff]
  push_neg
  constructor
  · rintro ⟨kv, hkv, h⟩
    refine ⟨kv, hkv, ?_⟩
    cases hv : kv.2 with
    | pending => rfl
    | image img => exact absurd hv (h img)
  · rintro ⟨kv, hkv, h⟩
    exact ⟨kv, hkv, fun img => by simp [h]⟩

theorem lookup_assign_self (rc : List (Url × Slot)) (url : Url) (v : Slot) :
    (assign rc url v).lookup url = some v := by
  induction rc with
  | nil => simp [assign, List.lookup]
  | cons kv rc ih =>
    obtain ⟨k, x⟩ := kv
    by_cases h : k = url
    · subst h; simp [assign, List.lookup]
    · have h2 : (url == k) = false := by simpa using fun e => h e.symm
      simp [assign, h, List.lookup, h2, ih]

theorem lookup_assign_ne (rc : List (Url × Slot)) (url u : Url) (v : Slot) (hne : u ≠ url) :
    (assign rc url v).lookup u = rc.lookup u := by
  induction rc with
  | nil =>
    have h2 : (u == url) = false := by simpa using hne
    simp [assign, List.lookup, h2]
  | cons kv rc ih =>
    obtain ⟨k, x⟩ := kv
    by_cases h : k = url
    · subst h
      have h2 : (u == k) = false := by simpa using hne
      simp [assign, List.lookup, h2]
    · by_cases h3 : u = k
      · subst h3; simp [assign, h, List.lookup]
      · have h2 : (u == k) = false := by simpa using h3
        simp [assign, h, List.lookup, h2, ih]

theorem read_assign_self (rc : List (Url × Slot)) (url : Url) (v : Slot) :
    read (assign rc url v) url = Value.slot v :=
  read_of_lookup _ _ _ (lookup_assign_self rc url v)

theorem read_assign_ne (rc : List (Url × Slot)) (url u : Url) (v : Slot) (hne : u ≠ url) :
    read (assign rc url v) u = read rc u := by
  unfold read
  rw [lookup_assign_ne rc url u v hne]

theorem keys_assign (rc : List (Url × Slot)) (url : Url) (v : Slot) :
    (assign rc url v).map Prod.fst
      = if url ∈ rc.map Prod.fst then rc.map Prod.fst else rc.map Prod.fst ++ [url] := by
  induction rc with
  | nil => simp [assign]
  | cons kv rc ih =>
    obtain ⟨k, x⟩ := kv
    by_cases h : k = url
    · subst h; simp [assign]
    · have h2 : ¬ url = k := fun e => h e.symm
      simp only [assign, h, if_false, List.map_cons, ih, List.mem_cons, h2, false_or]
      split <;> simp

theorem lookup_isSome_iff (rc : List (Url × Slot)) (u : Url) :
    (rc.lookup u).isSome = true ↔ u ∈ rc.map Prod.fst := by
  induction rc with
  | nil => simp [List.lookup]
  | cons kv rc ih =>
    obtain ⟨k, x⟩ := kv
    by_cases h : u = k
    · subst h; simp [List.lookup]
    · have h2 : (u == k) = false := by simpa using h
      simp [List.lookup, h2, ih, h]

theorem mem_of_lookup {α β : Type} [BEq α] [LawfulBEq α] (l : List (α × β)) (a : α) (b : β)
    (h : l.lookup a = some b) : (a, b) ∈ l := by
  induction l with
  | nil => simp [List.lookup] at h
  | cons kv l ih =>
    obtain ⟨k, x⟩ := kv
    by_cases hk : a = k
    · subst hk
      simp [List.lookup] at h
      simp [h]
    · have h2 : (a == k) = false := by simpa using hk
      simp only [List.lookup, h2] at h
      exact List.mem_cons_of_mem _ (ih h)

theorem lookup_of_mem_nodup (rc : List (Url × Slot)) (u : Url) (v : Slot)
    (hn : (rc.map Prod.fst).Nodup) (h : (u, v) ∈ rc) : rc.lookup u = some v := by
  induction rc with
  | nil => simp at h
  | cons kv rc ih =>
    obtain ⟨k, x⟩ := kv
    simp only [List.map_cons, List.nodup_cons] at hn
    rcases List.mem_cons.1 h with e | e
    · injection e with e1 e2
      subst e1; subst e2
      simp [List.lookup]
    · have hk : u ≠ k := by
        rintro rfl
        exact hn.1 (List.mem_map.2 ⟨(u, v), e, rfl⟩)
      have h2 : (u == k) = false := by simpa using hk
      simp only [List.lookup, h2]
      exact ih hn.2 e

theorem nodup_keys_assign (rc : List (Url × Slot)) (url : Url) (v : Slot)
    (hn : (rc.map Prod.fst).Nodup) : ((assign rc url v).map Prod.fst).Nodup := by
  rw [keys_assign]
  split
  · exact hn
  · next h =>
    rw [List.nodup_append]
    refine ⟨hn, List.nodup_singleton _, ?_⟩
    intro a ha hb
    rw [List.mem_singleton] at hb
    subst hb
    exact h ha

theorem mem_keys_assign (rc : List (Url × Slot)) (url : Url) (v : Slot) (x : Url) :
    x ∈ (assign rc url v).map Prod.fst ↔ x ∈ rc.map Prod.fst ∨ x = url := by
  rw [keys_assign]
  split
  · next h =>
    constructor
    · exact Or.inl
    · rintro (h1 | h1)
      · exact h1
      · subst h1; exact h
  · simp

/-! ## The cache: one operation -/

theorem Resources._load_of_truthy (r : Resources) (url : Url)
    (h : truthy (read r.resourceCache url) = true) : r._load url = (r, []) := by
  simp [Resources._load, h]

theorem Resources._load_of_falsy (r : Resources) (url : Url)
    (h : truthy (read r.resourceCache url) = false) :
    r._load url =
      ({ r with
          images := r.images + 1
          resourceCache := assign r.resourceCache url Slot.pending
          loading := r.loading ++ [(r.images, url)] },
       [Ev.fetch r.images url]) := by
  simp [Resources._load, h]

theorem load_foldl_acc (us : List Url) (r : Resources) (tr : List Ev) :
    us.foldl
        (fun (acc : Resources × List Ev) url =>
          ((Resources._load acc.1 url).1, acc.2 ++ (Resources._load acc.1 url).2))
        (r, tr)
      = ((us.foldl
            (fun (acc : Resources × List Ev) url =>
              ((Resources._load acc.1 url).1, acc.2 ++ (Resources._load acc.1 url).2))
            (r, [])).1,
         tr ++ (us.foldl
            (fun (acc : Resources × List Ev) url =>
              ((Resources._load acc.1 url).1, acc.2 ++ (Resources._load acc.1 url).2))
            (r, [])).2) := by
  induction us generalizing r tr with
  | nil => simp
  | cons u us ih =>
    simp only [List.foldl_cons, List.nil_append]
    rw [ih, ih (Resources._load r u).1 (Resources._load r u).2]
    simp [List.append_assoc]

theorem Resources.load_arr_nil (r : Resources) : r.load (UrlOrArr.arr []) = (r, []) := rfl

theorem Resources.load_arr_cons (r : Resources) (u : Url) (us : List Url) :
    r.load (UrlOrArr.arr (u :: us))
      = (((r._load u).1.load (UrlOrArr.arr us)).1,
         (r._load u).2 ++ ((r._load u).1.load (UrlOrArr.arr us)).2) := by
  simp only [Resources.load, List.foldl_cons, List.nil_append]
  rw [load_foldl_acc]

/-- A property of the state that `_load` keeps is kept by `load`. -/
theorem Resources.load_preserves (P : Resources → Prop)
    (h : ∀ r u, P r → P (Resources._load r u).1) (r : Resources) (a : UrlOrArr) (hr : P r) :
    P (r.load a).1 := by
  cases a with
  | url u => exact h r u hr
  | arr us =>
    induction us generalizing r with
    | nil => exact hr
    | cons u us ih =>
      rw [Resources.load_arr_cons]
      exact ih _ (h r u hr)

theorem Resources._load_events (r : Resources) (u : Url) :
    ∀ e ∈ (r._load u).2, ∃ img url, e = Ev.fetch img url := by
  intro e he
  cases h : truthy (read r.resourceCache u) with
  | true => rw [Resources._load_of_truthy r u h] at he; simp at he
  | false =>
    rw [Resources._load_of_falsy r u h] at he
    simp only [List.mem_singleton] at he
    exact ⟨_, _, he⟩

theorem Resources.load_events (r : Resources) (a : UrlOrArr) :
    ∀ e ∈ (r.load a).2, ∃ img url, e = Ev.fetch img url := by
  cases a with
  | url u => exact Resources._load_events r u
  | arr us =>
    induction us generalizing r with
    | nil => intro e he; simp [Resources.load_arr_nil] at he
    | cons u us ih =>
      intro e he
      rw [Resources.load_arr_cons] at he
      rcases List.mem_append.1 he with h | h
      · exact Resources._load_events r u e h
      · exact ih _ e h

theorem Resources._load_readyCallbacks (r : Resources) (u : Url) :
    (r._load u).1.readyCallbacks = r.readyCallbacks := by
  cases h : truthy (read r.resourceCache u) with
  | true => rw [Resources._load_of_truthy r u h]
  | false => rw [Resources._load_of_falsy r u h]

theorem Resources.load_readyCallbacks (r : Resources) (a : UrlOrArr) :
    (r.load a).1.readyCallbacks = r.readyCallbacks :=
  Resources.load_preserves (fun x => x.readyCallbacks = r.readyCallbacks)
    (fun x u hx => by show (x._load u).1.readyCallbacks = _; rw [Resources._load_readyCallbacks]; exact hx) r a rfl

theorem Resources.step_imgLoad_of_loading (r : Resources) (img : Nat) (url : Url)
    (h : r.loading.lookup img = some url) :
    r.step (Op.imgLoad img)
      = Resources.onload { r with loading := r.loading.filter (fun h => h.1 != img) } url img := by
  simp [Resources.step, h]

theorem Resources.step_imgLoad_of_not_loading (r : Resources) (img : Nat)
    (h : r.loading.lookup img = none) : r.step (Op.imgLoad img) = (r, []) := by
  simp [Resources.step, h]

theorem Resources.onload_fst (r : Resources) (url : Url) (img : Nat) :
    (r.onload url img).1
      = { r with resourceCache := assign r.resourceCache url (Slot.image img) } := by
  simp only [Resources.onload]
  split <;> rfl

theorem Resources.onload_snd (r : Resources) (url : Url) (img : Nat) :
    (r.onload url img).2
      = if (r.onload url img).1.isReady then r.readyCallbacks.map Ev.call else [] := by
  rw [Resources.onload_fst]
  simp only [Resources.onload]
  split
  · next h => simp [h, foldl_snoc]
  · next h => simp [h]

/-! ## The cache: which operations invoke callbacks -/

theorem count_call_map (cb : Callback) (l : List Callback) :
    (l.map Ev.call).count (Ev.call cb) = l.count cb := by
  induction l with
  | nil => simp
  | cons a l ih =>
    by_cases h : a = cb
    · subst h; simp [ih]
    · have h2 : ¬ Ev.call a = Ev.call cb := fun e => h (by injection e)
      simp [List.count_cons, ih, h, h2]

theorem count_eq_zero_of_fetch (cb : Callback) (l : List Ev)
    (h : ∀ e ∈ l, ∃ img url, e = Ev.fetch img url) : l.count (Ev.call cb) = 0 := by
  rw [List.count_eq_zero]
  intro hm
  obtain ⟨img, url, e⟩ := h _ hm
  cases e

theorem Resources.step_count_call (r : Resources) (op : Op) (cb : Callback) :
    (r.step op).2.count (Ev.call cb)
      = if r.completes op && (r.step op).1.isReady then r.readyCallbacks.count cb else 0 := by
  cases op with
  | load a =>
    simp only [Resources.step, Resources.completes, Bool.false_and, Bool.false_eq_true, if_false]
    exact count_eq_zero_of_fetch cb _ (Resources.load_events r a)
  | onReady f => simp [Resources.step, Resources.completes, Resources.onReady]
  | imgLoad img =>
    cases h : r.loading.lookup img with
    | none => simp [Resources.step_imgLoad_of_not_loading r img h, Resources.completes, h]
    | some url =>
      rw [Resources.step_imgLoad_of_loading r img url h, Resources.onload_snd]
      simp only [Resources.completes, h, Option.isSome_some, Bool.true_and]
      split
      · exact count_call_map cb _
      · simp

theorem Resources.step_no_call (r : Resources) (op : Op) (h : ∀ img, op ≠ Op.imgLoad img)
    (f : Callback) : Ev.call f ∉ (r.step op).2 := by
  have hc := Resources.step_count_call r op f
  have : r.completes op = false := by
    cases op with
    | load a => rfl
    | onReady g => rfl
    | imgLoad img => exact absurd rfl (h img)
  rw [this] at hc
  simp only [Bool.false_and, Bool.false_eq_true, if_false] at hc
  exact List.count_eq_zero.1 hc

theorem Resources.run_no_call (r : Resources) (ops : List Op)
    (h : ∀ img, Op.imgLoad img ∉ ops) (f : Callback) : Ev.call f ∉ (r.run ops).2 := by
  induction ops generalizing r with
  | nil => simp [Resources.run]
  | cons op ops ih =>
    simp only [Resources.run, List.mem_append, not_or]
    refine ⟨Resources.step_no_call r op (fun img e => h img (by simp [e])) f, ih _ ?_⟩
    intro img hm
    exact h img (List.mem_cons_of_mem _ hm)

/-! ## The cache: reachable states -/

theorem Resources.wellFormed_empty : Resources.WellFormed {} := by
  simp [Resources.WellFormed, Resources.keys]

theorem Resources._load_keys_mono (r : Resources) (u x : Url) (hx : x ∈ r.keys) :
    x ∈ (r._load u).1.keys := by
  cases h : truthy (read r.resourceCache u) with
  | true => rw [Resources._load_of_truthy r u h]; exact hx
  | false =>
    rw [Resources._load_of_falsy r u h]
    exact (mem_keys_assign _ _ _ _).2 (Or.inl hx)

theorem Resources._load_keys_subset (r : Resources) (u x : Url)
    (hx : x ∈ (r._load u).1.keys) : x ∈ r.keys ∨ x = u := by
  cases h : truthy (read r.resourceCache u) with
  | true => rw [Resources._load_of_truthy r u h] at hx; exact Or.inl hx
  | false =>
    rw [Resources._load_of_falsy r u h] at hx
    exact (mem_keys_assign _ _ _ _).1 hx

theorem Resources._load_self_mem_keys (r : Resources) (u : Url)
    (hu : u ∉ objectPrototypeKeys) : u ∈ (r._load u).1.keys := by
  cases h : truthy (read r.resourceCache u) with
  | true =>
    rw [Resources._load_of_truthy r u h]
    rcases (truthy_read_iff _ _).1 h with ⟨img, hi⟩ | ⟨_, hk⟩
    · exact List.mem_map.2 ⟨(u, Slot.image img), mem_of_lookup _ _ _ hi, rfl⟩
    · exact absurd hk hu
  | false =>
    rw [Resources._load_of_falsy r u h]
    exact (mem_keys_assign _ _ _ _).2 (Or.inr rfl)

theorem Resources._load_wellFormed (r : Resources) (u : Url) (hr : r.WellFormed) :
    (r._load u).1.WellFormed := by
  cases h : truthy (read r.resourceCache u) with
  | true => rw [Resources._load_of_truthy r u h]; exact hr
  | false =>
    rw [Resources._load_of_falsy r u h]
    refine ⟨nodup_keys_assign _ _ _ hr.1, ?_⟩
    intro e he
    simp only [List.mem_append, List.mem_singleton] at he
    simp only [Resources.keys]
    rw [mem_keys_assign]
    rcases he with he | he
    · exact Or.inl (hr.2 e he)
    · subst he; exact Or.inr rfl

theorem Resources.load_wellFormed (r : Resources) (a : UrlOrArr) (hr : r.WellFormed) :
    (r.load a).1.WellFormed :=
  Resources.load_preserves Resources.WellFormed Resources._load_wellFormed r a hr

theorem Resources.load_keys_mono (r : Resources) (a : UrlOrArr) (x : Url) (hx : x ∈ r.keys) :
    x ∈ (r.load a).1.keys :=
  Resources.load_preserves (fun y => x ∈ y.keys)
    (fun y u hy => Resources._load_keys_mono y u x hy) r a hx

theorem Resources.load_keys_subset (r : Resources) (a : UrlOrArr) (x : Url)
    (hx : x ∈ (r.load a).1.keys) : x ∈ r.keys ∨ x ∈ requested [Op.load a] := by
  cases a with
  | url u =>
    rcases Resources._load_keys_subset r u x hx with h | h
    · exact Or.inl h
    · exact Or.inr (by simp [requested, h])
  | arr us =>
    induction us generalizing r with
    | nil => exact Or.inl hx
    | cons u us ih =>
      rw [Resources.load_arr_cons] at hx
      rcases ih _ hx with h | h
      · rcases Resources._load_keys_subset r u x h with h2 | h2
        · exact Or.inl h2
        · exact Or.inr (by simp [requested, h2])
      · right
        simp only [requested, List.append_nil, List.mem_cons] at h ⊢
        exact Or.inr h

theorem Resources.load_requested_mem_keys (r : Resources) (a : UrlOrArr) (x : Url)
    (hx : x ∈ requested [Op.load a]) (hk : x ∉ objectPrototypeKeys) :
    x ∈ (r.load a).1.keys := by
  cases a with
  | url u =>
    simp only [requested, List.mem_singleton] at hx
    subst hx
    exact Resources._load_self_mem_keys r x hk
  | arr us =>
    simp only [requested, List.append_nil] at hx
    induction us generalizing r with
    | nil => simp at hx
    | cons u us ih =>
      rw [Resources.load_arr_cons]
      rcases List.mem_cons.1 hx with h | h
      · subst h
        exact Resources.load_keys_mono _ _ _ (Resources._load_self_mem_keys r x hk)
      · exact ih _ h

theorem Resources.step_wellFormed (r : Resources) (op : Op) (hr : r.WellFormed) :
    (r.step op).1.WellFormed := by
  cases op with
  | load a => exact Resources.load_wellFormed r a hr
  | onReady f => exact hr
  | imgLoad img =>
    cases h : r.loading.lookup img with
    | none => rw [Resources.step_imgLoad_of_not_loading r img h]; exact hr
    | some url =>
      rw [Resources.step_imgLoad_of_loading r img url h, Resources.onload_fst]
      refine ⟨nodup_keys_assign _ _ _ hr.1, ?_⟩
      intro e he
      simp only [Resources.keys]
      rw [mem_keys_assign]
      exact Or.inl (hr.2 e (List.mem_filter.1 he).1)

theorem Resources.step_keys_subset (r : Resources) (op : Op) (hr : r.WellFormed) (x : Url)
    (hx : x ∈ (r.step op).1.keys) : x ∈ r.keys ∨ x ∈ requested [op] := by
  cases op with
  | load a => exact Resources.load_keys_subset r a x hx
  | onReady f => exact Or.inl hx
  | imgLoad img =>
    left
    cases h : r.loading.lookup img with
    | none => rw [Resources.step_imgLoad_of_not_loading r img h] at hx; exact hx
    | some url =>
      rw [Resources.step_imgLoad_of_loading r img url h, Resources.onload_fst] at hx
      rcases (mem_keys_assign _ _ _ _).1 hx with h1 | h1
      · exact h1
      · subst h1; exact hr.2 _ (mem_of_lookup _ _ _ h)

theorem requested_cons (op : Op) (ops : List Op) :
    requested (op :: ops) = requested [op] ++ requested ops := by
  cases op with
  | load a => cases a <;> simp [requested]
  | onReady f => simp [requested]
  | imgLoad img => simp [requested]

theorem Resources.run_wellFormed (r : Resources) (ops : List Op) (hr : r.WellFormed) :
    (r.run ops).1.WellFormed := by
  induction ops generalizing r with
  | nil => exact hr
  | cons op ops ih => exact ih _ (Resources.step_wellFormed r op hr)

theorem Resources.run_keys_subset (r : Resources) (ops : List Op) (hr : r.WellFormed) (x : Url)
    (hx : x ∈ (r.run ops).1.keys) : x ∈ r.keys ∨ x ∈ requested ops := by
  induction ops generalizing r with
  | nil => exact Or.inl hx
  | cons op ops ih =>
    simp only [Resources.run] at hx
    rw [requested_cons, List.mem_append]
    rcases ih _ (Resources.step_wellFormed r op hr) hx with h | h
    · rcases Resources.step_keys_subset r op hr x h with h2 | h2
      · exact Or.inl h2
      · exact Or.inr (Or.inl h2)
    · exact Or.inr (Or.inr h)

/-! ## Numbers -/

theorem abs_roundHalfEven_sub_le (x : ℚ) : |(roundHalfEven x : ℚ) - x| ≤ 1 / 2 := by
  have h0 := Int.fract_nonneg x
  have h1 := Int.fract_lt_one x
  have hx : x = (⌊x⌋ : ℚ) + Int.fract x := (Int.floor_add_fract x).symm
  unfold roundHalfEven
  split
  · next h =>
    rw [abs_le]
    constructor <;> linarith
  · next h =>
    split
    · next h2 =>
      rw [abs_le]
      push_cast
      constructor <;> linarith
    · next h2 =>
      have hf : Int.fract x = 1 / 2 := le_antisymm (not_lt.1 h2) (not_lt.1 h)
      split
      · rw [abs_le]
        constructor <;> linarith
      · rw [abs_le]
        push_cast
        constructor <;> linarith

theorem roundHalfEven_intCast (z : Int) : roundHalfEven (z : ℚ) = z := by
  unfold roundHalfEven
  simp

theorem abs_roundDouble_sub_le (q : ℚ) : |roundDouble q - q| ≤ |q| / 2 ^ 53 := by
  unfold roundDouble
  split
  · next h => simp [h]
  · next h =>
    have hq : 0 < |q| := abs_pos.2 h
    have hpos : (0 : ℚ) < 2 ^ (Int.log 2 |q| - 52) := zpow_pos (by norm_num) _
    have hlog : ((2 : ℕ) : ℚ) ^ Int.log 2 |q| ≤ |q| := Int.zpow_log_le_self (by norm_num) hq
    have he := abs_roundHalfEven_sub_le (q / 2 ^ (Int.log 2 |q| - 52))
    have hmul : |(roundHalfEven (q / 2 ^ (Int.log 2 |q| - 52)) : ℚ) * 2 ^ (Int.log 2 |q| - 52) - q|
        = |(roundHalfEven (q / 2 ^ (Int.log 2 |q| - 52)) : ℚ) - q / 2 ^ (Int.log 2 |q| - 52)|
          * 2 ^ (Int.log 2 |q| - 52) := by
      rw [← abs_of_pos hpos, ← abs_mul, abs_of_pos hpos]
      congr 1
      field_simp
    rw [hmul]
    have h52 : (2 : ℚ) ^ (Int.log 2 |q| - 52) = 2 ^ Int.log 2 |q| / 2 ^ 52 := by
      rw [zpow_sub₀ (by norm_num)]
      norm_num
    calc |(roundHalfEven (q / 2 ^ (Int.log 2 |q| - 52)) : ℚ) - q / 2 ^ (Int.log 2 |q| - 52)|
          * 2 ^ (Int.log 2 |q| - 52)
        ≤ 1 / 2 * 2 ^ (Int.log 2 |q| - 52) := mul_le_mul_of_nonneg_right he hpos.le
      _ = 2 ^ Int.log 2 |q| / 2 ^ 53 := by rw [h52]; ring
      _ ≤ |q| / 2 ^ 53 := by
        apply div_le_div_of_nonneg_right _ (by positivity)
        simpa using hlog

theorem roundDouble_intCast (d : Int) (h : |d| < 2 ^ 53) : roundDouble (d : ℚ) = d := by
  unfold roundDouble
  split
  · next h0 => exact h0.symm
  · next h0 =>
    have hd : d ≠ 0 := by exact_mod_cast h0
    have habs : (1 : ℚ) ≤ |(d : ℚ)| := by
      have : (1 : Int) ≤ |d| := Int.one_le_abs hd
      exact_mod_cast this
    have hlt : |(d : ℚ)| < 2 ^ (53 : ℤ) := by
      have h2 : ((|d| : Int) : ℚ) < ((2 ^ 53 : Int) : ℚ) := by exact_mod_cast h
      rw [Int.cast_abs] at h2
      have h3 : (2 : ℚ) ^ (53 : ℤ) = ((2 ^ 53 : Int) : ℚ) := by norm_num
      rw [h3]
      exact h2
    have hl0 : (0 : ℤ) ≤ Int.log 2 |(d : ℚ)| := by
      rw [← Int.zpow_le_iff_le_log (by norm_num) (by linarith)]
      simpa using habs
    have hl1 : Int.log 2 |(d : ℚ)| < 53 := by
      rw [← Int.lt_zpow_iff_log_lt (by norm_num) (by linarith)]
      simpa using hlt
    obtain ⟨n, hn⟩ : ∃ n : ℕ, Int.log 2 |(d : ℚ)| - 52 = -(n : ℤ) :=
      ⟨(52 - Int.log 2 |(d : ℚ)|).toNat, by omega⟩
    rw [hn]
    have hz : (d : ℚ) / 2 ^ (-(n : ℤ)) = ((d * 2 ^ n : Int) : ℚ) := by
      rw [zpow_neg, zpow_natCast]
      push_cast
      field_simp
    rw [hz, roundHalfEven_intCast, zpow_neg, zpow_natCast]
    push_cast
    field_simp

theorem log_two_sixteen_thousandths : Int.log 2 |(16 / 1000 : ℚ)| = -6 := by
  have hpos : (0 : ℚ) < |(16 / 1000 : ℚ)| := by norm_num
  apply le_antisymm
  · have : Int.log 2 |(16 / 1000 : ℚ)| < -5 := by
      rw [← Int.lt_zpow_iff_log_lt (by norm_num) hpos]
      norm_num [abs_of_pos]
    omega
  · rw [← Int.zpow_le_iff_le_log (by norm_num) hpos]
    norm_num [abs_of_pos]

theorem roundDouble_sixteen_thousandths :
    roundDouble (16 / 1000) = 1152921504606847 / 72057594037927936 := by
  unfold roundDouble
  rw [if_neg (by norm_num), log_two_sixteen_thousandths]
  have hfl : ⌊(16 / 1000 : ℚ) / 2 ^ (-6 - 52 : ℤ)⌋ = 4611686018427387 := by
    rw [Int.floor_eq_iff]
    norm_num
  have hfr : Int.fract ((16 / 1000 : ℚ) / 2 ^ (-6 - 52 : ℤ)) = 113 / 125 := by
    rw [Int.fract, hfl]
    norm_num
  have hr : roundHalfEven ((16 / 1000 : ℚ) / 2 ^ (-6 - 52 : ℤ)) = 4611686018427388 := by
    unfold roundHalfEven
    rw [hfr, hfl]
    norm_num
  rw [hr]
  norm_num

theorem fsub_intCast (a b : Int) (h : |a - b| < 2 ^ 53) :
    fsub (a : ℚ) (b : ℚ) = ((a - b : Int) : ℚ) := by
  unfold fsub
  rw [← Int.cast_sub]
  exact roundDouble_intCast (a - b) h

theorem abs_fdiv_fsub_sub_le (a b : Int) :
    |fdiv (fsub (a : ℚ) (b : ℚ)) 1000 - ((a - b : Int) : ℚ) / 1000|
      ≤ |((a - b : Int) : ℚ) / 1000| / 2 ^ 51 := by
  unfold fdiv fsub
  rw [← Int.cast_sub]
  have h1 := abs_roundDouble_sub_le ((a - b : Int) : ℚ)
  have h2 := abs_roundDouble_sub_le (roundDouble ((a - b : Int) : ℚ) / 1000)
  have hd : 0 ≤ |((a - b : Int) : ℚ)| := abs_nonneg _
  have h3 : |roundDouble ((a - b : Int) : ℚ)| ≤ |((a - b : Int) : ℚ)| * 2 := by
    have := abs_sub_abs_le_abs_sub (roundDouble ((a - b : Int) : ℚ)) ((a - b : Int) : ℚ)
    have h4 : |((a - b : Int) : ℚ)| / 2 ^ 53 ≤ |((a - b : Int) : ℚ)| := by
      apply div_le_self hd
      norm_num
    linarith
  rw [abs_div, abs_of_pos (by norm_num : (0 : ℚ) < 1000)] at h2 ⊢
  have h5 : roundDouble (roundDouble ((a - b : Int) : ℚ) / 1000) - ((a - b : Int) : ℚ) / 1000
      = (roundDouble (roundDouble ((a - b : Int) : ℚ) / 1000)
          - roundDouble ((a - b : Int) : ℚ) / 1000)
        + (roundDouble ((a - b : Int) : ℚ) - ((a - b : Int) : ℚ)) / 1000 := by ring
  rw [h5]
  refine le_trans (abs_add _ _) ?_
  rw [abs_div, abs_of_pos (by norm_num : (0 : ℚ) < 1000)]
  have h6 : |roundDouble ((a - b : Int) : ℚ)| / 1000 / 2 ^ 53
      ≤ |((a - b : Int) : ℚ)| * 2 / 1000 / 2 ^ 53 := by
    apply div_le_div_of_nonneg_right _ (by norm_num)
    exact div_le_div_of_nonneg_right h3 (by norm_num)
  have h7 : |roundDouble ((a - b : Int) : ℚ) - ((a - b : Int) : ℚ)| / 1000
      ≤ |((a - b : Int) : ℚ)| / 2 ^ 53 / 1000 :=
    div_le_div_of_nonneg_right h1 (by norm_num)
  have h8 : |((a - b : Int) : ℚ)| * 2 / 1000 / 2 ^ 53 + |((a - b : Int) : ℚ)| / 2 ^ 53 / 1000
      ≤ |((a - b : Int) : ℚ)| / 1000 / 2 ^ 51 := by
    have e1 : |((a - b : Int) : ℚ)| * 2 / 1000 / 2 ^ 53 + |((a - b : Int) : ℚ)| / 2 ^ 53 / 1000
        = |((a - b : Int) : ℚ)| * (3 / (1000 * 2 ^ 53)) := by ring
    have e2 : |((a - b : Int) : ℚ)| / 1000 / 2 ^ 51
        = |((a - b : Int) : ℚ)| * (4 / (1000 * 2 ^ 53)) := by ring
    rw [e1, e2]
    apply mul_le_mul_of_nonneg_left _ hd
    norm_num
  linarith

/-! ## The engine -/

theorem Engine.update_eq (app : App) (dt : Option ℚ) :
    Engine.update app dt
      = app.allEnemies.map (fun enemy => Ev.enemyUpdate enemy dt) ++ [Ev.playerUpdate app.player] := by
  simp [Engine.update, Engine.updateEntities, foldl_snoc]

theorem Engine.renderEntities_eq (app : App) :
    Engine.renderEntities app
      = app.allEnemies.map Ev.enemyRender ++ [Ev.playerRender app.player] := by
  simp [Engine.renderEntities, foldl_snoc]

theorem foldl_rows (g : Nat → Nat → Ev) (rows cols : List Nat) (tr : List Ev) :
    rows.foldl (fun tr row => cols.foldl (fun tr col => tr ++ [g row col]) tr) tr
      = tr ++ rows.flatMap (fun row => cols.map (g row)) := by
  induction rows generalizing tr with
  | nil => simp
  | cons row rows ih =>
    simp only [List.foldl_cons, List.flatMap_cons]
    rw [ih, foldl_snoc, List.append_assoc]

theorem Engine.grid_eq (res : Resources) :
    (List.range Engine.numRows).flatMap
        (fun row => (List.range Engine.numCols).map
          (fun col =>
            Ev.drawImage (res.get (Engine.rowImages.getD row "undefined")) (col * 101) (row * 83)))
      = cellsRowMajor.map
          (fun c => Ev.drawImage (res.get (rowTile c.1)) (c.2 * 101) (c.1 * 83)) := by
  simp [Engine.numRows, Engine.numCols, List.range, List.range.loop, Engine.rowImages,
    cellsRowMajor, rowTile]

theorem Engine.render_eq (app : App) (res : Resources) :
    Engine.render app res
      = [Ev.clearRect 0 0 505 606]
        ++ cellsRowMajor.map
            (fun c => Ev.drawImage (res.get (rowTile c.1)) (c.2 * 101) (c.1 * 83))
        ++ (app.allEnemies.map Ev.enemyRender ++ [Ev.playerRender app.player]) := by
  rw [← Engine.renderEntities_eq, ← Engine.grid_eq]
  simp only [Engine.render]
  rw [foldl_rows
    (fun row col =>
      Ev.drawImage (res.get (Engine.rowImages.getD row "undefined")) (col * 101) (row * 83))]
  rfl

theorem Engine.main_eq (app : App) (res : Resources) (s : Engine) (now : Int) :
    Engine.main app res s now
      = ({ s with lastTime := some now },
         Engine.update app (s.lastTime.map (fun lastTime => fdiv (fsub now lastTime) 1000))
           ++ Engine.render app res ++ [Ev.requestAnimationFrame]) := rfl

theorem cellsRowMajor_eq :
    cellsRowMajor = (List.range 6).flatMap (fun row => (List.range 5).map (fun col => (row, col))) := by
  decide

theorem mem_cellsRowMajor (row col : Nat) :
    (row, col) ∈ cellsRowMajor ↔ row < 6 ∧ col < 5 := by
  rw [cellsRowMajor_eq]
  simp only [List.mem_flatMap, List.mem_map, List.mem_range, Prod.mk.injEq]
  constructor
  · rintro ⟨r, hr, c, hc, rfl, rfl⟩
    exact ⟨hr, hc⟩
  · rintro ⟨hr, hc⟩
    exact ⟨row, hr, col, hc, rfl, rfl⟩

theorem Engine.render_filter_isDraw (app : App) (res : Resources) :
    (Engine.render app res).filter Ev.isDraw
      = cellsRowMajor.map
          (fun c => Ev.drawImage (res.get (rowTile c.1)) (c.2 * 101) (c.1 * 83)) := by
  rw [Engine.render_eq]
  have h1 : [Ev.clearRect 0 0 505 606].filter Ev.isDraw = [] := rfl
  have h2 : (app.allEnemies.map Ev.enemyRender).filter Ev.isDraw = [] := by
    rw [List.filter_eq_nil_iff]
    intro e he
    obtain ⟨x, _, rfl⟩ := List.mem_map.1 he
    simp [Ev.isDraw]
  have h3 : [Ev.playerRender app.player].filter Ev.isDraw = [] := rfl
  have h4 : (cellsRowMajor.map
      (fun c => Ev.drawImage (res.get (rowTile c.1)) (c.2 * 101) (c.1 * 83))).filter Ev.isDraw
        = cellsRowMajor.map
          (fun c => Ev.drawImage (res.get (rowTile c.1)) (c.2 * 101) (c.1 * 83)) := by
    rw [List.filter_eq_self]
    intro e he
    obtain ⟨x, _, rfl⟩ := List.mem_map.1 he
    rfl
  rw [List.filter_append, List.filter_append, List.filter_append, h1, h2, h3, h4]
  simp

theorem drawImage_cell_injective (res : Resources) :
    Function.Injective
      (fun c : Nat × Nat => Ev.drawImage (res.get (rowTile c.1)) (c.2 * 101) (c.1 * 83)) := by
  rintro ⟨r1, c1⟩ ⟨r2, c2⟩ h
  simp only [Ev.drawImage.injEq] at h
  obtain ⟨_, hx, hy⟩ := h
  have e1 : c1 = c2 := by omega
  have e2 : r1 = r2 := by omega
  rw [e1, e2]

/-! ## The cache: loaded entries stay loaded, keys stay -/

theorem Resources._load_loaded_mono (u : Url) (r : Resources) (x : Url)
    (h : ∃ img, r.get u = Value.slot (Slot.image img)) :
    ∃ img, (r._load x).1.get u = Value.slot (Slot.image img) := by
  cases hx : truthy (read r.resourceCache x) with
  | true => rw [Resources._load_of_truthy r x hx]; exact h
  | false =>
    rw [Resources._load_of_falsy r x hx]
    obtain ⟨img, hi⟩ := h
    have hne : u ≠ x := by
      rintro rfl
      simp only [Resources.get] at hi
      rw [hi] at hx
      simp [truthy] at hx
    refine ⟨img, ?_⟩
    simp only [Resources.get] at hi ⊢
    rw [read_assign_ne _ _ _ _ hne]
    exact hi

theorem Resources.step_loaded_mono (u : Url) (r : Resources) (op : Op)
    (h : ∃ img, r.get u = Value.slot (Slot.image img)) :
    ∃ img, (r.step op).1.get u = Value.slot (Slot.image img) := by
  cases op with
  | load a =>
    exact Resources.load_preserves (fun x => ∃ img, x.get u = Value.slot (Slot.image img))
      (fun x y hx => Resources._load_loaded_mono u x y hx) r a h
  | onReady f => exact h
  | imgLoad img =>
    cases hl : r.loading.lookup img with
    | none => rw [Resources.step_imgLoad_of_not_loading r img hl]; exact h
    | some url =>
      rw [Resources.step_imgLoad_of_loading r img url hl, Resources.onload_fst]
      by_cases hu : u = url
      · subst hu
        exact ⟨img, read_assign_self _ _ _⟩
      · obtain ⟨i, hi⟩ := h
        refine ⟨i, ?_⟩
        simp only [Resources.get] at hi ⊢
        rw [read_assign_ne _ _ _ _ hu]
        exact hi

theorem Resources.step_keys_mono (u : Url) (r : Resources) (op : Op) (h : u ∈ r.keys) :
    u ∈ (r.step op).1.keys := by
  cases op with
  | load a =>
    exact Resources.load_preserves (fun x => u ∈ x.keys)
      (fun x y hx => Resources._load_keys_mono x y u hx) r a h
  | onReady f => exact h
  | imgLoad img =>
    cases hl : r.loading.lookup img with
    | none => rw [Resources.step_imgLoad_of_not_loading r img hl]; exact h
    | some url =>
      rw [Resources.step_imgLoad_of_loading r img url hl, Resources.onload_fst]
      simp only [Resources.keys]
      rw [mem_keys_assign]
      exact Or.inl h

theorem Resources.run_keys_mono (u : Url) (r : Resources) (ops : List Op) (h : u ∈ r.keys) :
    u ∈ (r.run ops).1.keys := by
  induction ops generalizing r with
  | nil => exact h
  | cons op ops ih => exact ih _ (Resources.step_keys_mono u r op h)

theorem Resources.run_requested_mem_keys (r : Resources) (ops : List Op) (x : Url)
    (hx : x ∈ requested ops) (hk : x ∉ objectPrototypeKeys) : x ∈ (r.run ops).1.keys := by
  induction ops generalizing r with
  | nil => simp [requested] at hx
  | cons op ops ih =>
    rw [requested_cons, List.mem_append] at hx
    simp only [Resources.run]
    rcases hx with h | h
    · apply Resources.run_keys_mono
      cases op with
      | load a => exact Resources.load_requested_mem_keys r a x h hk
      | onReady f => simp [requested] at h
      | imgLoad img => simp [requested] at h
    · exact ih _ h

theorem Resources._load_no_inherited_key (r : Resources) (u : Url)
    (h0 : ∀ k ∈ r.keys, k ∉ objectPrototypeKeys) :
    ∀ k ∈ (r._load u).1.keys, k ∉ objectPrototypeKeys := by
  intro k hk
  rcases Resources._load_keys_subset r u k hk with h | h
  · exact h0 k h
  · subst h
    cases ht : truthy (read r.resourceCache k) with
    | true =>
      rw [Resources._load_of_truthy r k ht] at hk
      exact h0 k hk
    | false =>
      intro hp
      cases hl : r.resourceCache.lookup k with
      | none =>
        have := (truthy_read_iff r.resourceCache k).2 (Or.inr ⟨hl, hp⟩)
        rw [ht] at this
        cases this
      | some v =>
        exact h0 k (List.mem_map.2 ⟨(k, v), mem_of_lookup _ _ _ hl, rfl⟩) hp

theorem Resources.step_no_inherited_key (r : Resources) (op : Op) (hw : r.WellFormed)
    (h0 : ∀ k ∈ r.keys, k ∉ objectPrototypeKeys) :
    ∀ k ∈ (r.step op).1.keys, k ∉ objectPrototypeKeys := by
  cases op with
  | load a =>
    exact Resources.load_preserves (fun x => ∀ k ∈ x.keys, k ∉ objectPrototypeKeys)
      (fun x u hx => Resources._load_no_inherited_key x u hx) r a h0
  | onReady f => exact h0
  | imgLoad img =>
    intro k hk
    rcases Resources.step_keys_subset r (Op.imgLoad img) hw k hk with h | h
    · exact h0 k h
    · simp [requested] at h

theorem Resources.no_inherited_key (r : Resources) (ops : List Op) (hw : r.WellFormed)
    (h0 : ∀ k ∈ r.keys, k ∉ objectPrototypeKeys) (k : Url) (hk : k ∈ objectPrototypeKeys)
    (hm : k ∈ (r.run ops).1.keys) : False := by
  induction ops generalizing r with
  | nil => exact h0 k hm hk
  | cons op ops ih =>
    exact ih _ (Resources.step_wellFormed r op hw) (Resources.step_no_inherited_key r op hw h0) hm

theorem Resources.loaded_of_isReady (r : Resources) (u : Url) (hu : u ∈ r.keys)
    (h : r.isReady = true) : ∃ img, r.get u = Value.slot (Slot.image img) := by
  have hs := (lookup_isSome_iff r.resourceCache u).2 hu
  obtain ⟨v, hv⟩ := Option.isSome_iff_exists.1 hs
  obtain ⟨img, hi⟩ := (Resources.isReady_iff r).1 h (u, v) (mem_of_lookup _ _ _ hv)
  refine ⟨img, ?_⟩
  simp only [Resources.get]
  rw [read_of_lookup _ _ _ hv]
  exact congrArg Value.slot hi

theorem Resources.step_events (r : Resources) (op : Op) :
    ∀ e ∈ (r.step op).2, (∃ img url, e = Ev.fetch img url) ∨ ∃ cb, e = Ev.call cb := by
  intro e he
  cases op with
  | load a => exact Or.inl (Resources.load_events r a e he)
  | onReady f => simp [Resources.step, Resources.onReady] at he
  | imgLoad img =>
    cases hl : r.loading.lookup img with
    | none => rw [Resources.step_imgLoad_of_not_loading r img hl] at he; simp at he
    | some url =>
      rw [Resources.step_imgLoad_of_loading r img url hl, Resources.onload_snd] at he
      split at he
      · obtain ⟨cb, _, rfl⟩ := List.mem_map.1 he
        exact Or.inr ⟨cb, rfl⟩
      · simp at he

theorem Resources.step_call_imp (r : Resources) (op : Op) (cb : Callback)
    (h : Ev.call cb ∈ (r.step op).2) :
    (∃ img, op = Op.imgLoad img ∧ (r.loading.lookup img).isSome = true)
      ∧ (r.step op).1.isReady = true ∧ cb ∈ r.readyCallbacks := by
  have hc := Resources.step_count_call r op cb
  have hpos : 0 < (r.step op).2.count (Ev.call cb) := List.count_pos_iff.2 h
  rw [hc] at hpos
  split at hpos
  · next hcond =>
    rw [Bool.and_eq_true] at hcond
    refine ⟨?_, hcond.2, List.count_pos_iff.1 hpos⟩
    cases op with
    | load a => simp [Resources.completes] at hcond
    | onReady f => simp [Resources.completes] at hcond
    | imgLoad img => exact ⟨img, rfl, hcond.1⟩
  · exact absurd hpos (lt_irrefl 0)

/-! ## The page -/

theorem Engine.main_isLoop (app : App) (res : Resources) (s : Engine) (now : Int) :
    ∀ e ∈ (Engine.main app res s now).2, e.isLoop = true := by
  intro e he
  rw [Engine.main_eq, Engine.update_eq, Engine.render_eq] at he
  simp only [List.mem_append, List.mem_map, List.mem_singleton] at he
  rcases he with ((⟨x, _, rfl⟩ | rfl) | ((rfl | ⟨c, _, rfl⟩) | (⟨x, _, rfl⟩ | rfl))) | rfl <;> rfl

theorem Engine.init_isLoop (app : App) (res : Resources) (s : Engine) (t0 t1 : Int) :
    ∀ e ∈ (Engine.init app res s t0 t1).2, e.isLoop = true := by
  intro e he
  exact Engine.main_isLoop app res { s with lastTime := some t0 } t1 e he

theorem Page.invoke_res (clock : Nat → Int) (app : App) (p : Page) (cb : Callback) :
    (Page.invoke clock app p cb).1.res = p.res := by
  cases cb <;> rfl

theorem Page.invoke_other (clock : Nat → Int) (app : App) (p : Page) (id : Nat) :
    Page.invoke clock app p (Callback.other id) = (p, [Ev.call (Callback.other id)]) := rfl

theorem Page.invoke_events (clock : Nat → Int) (app : App) (p : Page) (cb : Callback) :
    ∀ e ∈ (Page.invoke clock app p cb).2, e = Ev.call cb ∨ (e.isLoop = true ∧ cb = Callback.init) := by
  intro e he
  cases cb with
  | init =>
    simp only [Page.invoke, List.mem_cons] at he
    rcases he with rfl | he
    · exact Or.inl rfl
    · exact Or.inr ⟨Engine.init_isLoop _ _ _ _ _ e he, rfl⟩
  | other id =>
    simp only [Page.invoke_other, List.mem_singleton] at he
    exact Or.inl he

theorem Page.perform_foldl (clock : Nat → Int) (app : App) (evs : List Ev)
    (hev : ∀ e ∈ evs, (∃ img url, e = Ev.fetch img url) ∨ ∃ cb, e = Ev.call cb)
    (q : Page) (tr : List Ev) :
    (evs.foldl (Page.perform clock app) (q, tr)).1.res = q.res
    ∧ (∀ e ∈ (evs.foldl (Page.perform clock app) (q, tr)).2,
        e ∈ tr ∨ e ∈ evs ∨ (e.isLoop = true ∧ Ev.call Callback.init ∈ evs))
    ∧ ((evs.foldl (Page.perform clock app) (q, tr)).1.frames ≠ q.frames
        → Ev.call Callback.init ∈ evs) := by
  induction evs generalizing q tr with
  | nil => simp
  | cons ev evs ih =>
    have hev2 : ∀ e ∈ evs, (∃ img url, e = Ev.fetch img url) ∨ ∃ cb, e = Ev.call cb :=
      fun e he => hev e (List.mem_cons_of_mem _ he)
    rcases hev ev (List.mem_cons_self _ _) with ⟨img, url, rfl⟩ | ⟨cb, rfl⟩
    · simp only [List.foldl_cons, Page.perform]
      obtain ⟨h1, h2, h3⟩ := ih hev2 q (tr ++ [Ev.fetch img url])
      refine ⟨h1, ?_, ?_⟩
      · intro e he
        rcases h2 e he with h | h | h
        · rcases List.mem_append.1 h with h | h
          · exact Or.inl h
          · rw [List.mem_singleton] at h
            subst h
            exact Or.inr (Or.inl (List.mem_cons_self _ _))
        · exact Or.inr (Or.inl (List.mem_cons_of_mem _ h))
        · exact Or.inr (Or.inr ⟨h.1, List.mem_cons_of_mem _ h.2⟩)
      · intro hf
        exact List.mem_cons_of_mem _ (h3 hf)
    · simp only [List.foldl_cons, Page.perform]
      obtain ⟨h1, h2, h3⟩ := ih hev2 (Page.invoke clock app q cb).1
        (tr ++ (Page.invoke clock app q cb).2)
      refine ⟨by rw [h1, Page.invoke_res], ?_, ?_⟩
      · intro e he
        rcases h2 e he with h | h | h
        · rcases List.mem_append.1 h with h | h
          · exact Or.inl h
          · rcases Page.invoke_events clock app q cb e h with h5 | ⟨h6, hc⟩
            · subst h5
              exact Or.inr (Or.inl (List.mem_cons_self _ _))
            · subst hc
              exact Or.inr (Or.inr ⟨h6, List.mem_cons_self _ _⟩)
        · exact Or.inr (Or.inl (List.mem_cons_of_mem _ h))
        · exact Or.inr (Or.inr ⟨h.1, List.mem_cons_of_mem _ h.2⟩)
      · intro hf
        cases cb with
        | init => exact List.mem_cons_self _ _
        | other id =>
          rw [Page.invoke_other] at h3
          exact List.mem_cons_of_mem _ (h3 hf)

theorem Page.step_res_res (clock : Nat → Int) (app : App) (p : Page) (op : Op) :
    (Page.step clock app p (PageOp.res op)).1.res = (Resources.step p.res op).1 :=
  (Page.perform_foldl clock app _ (Resources.step_events p.res op) _ []).1

theorem Page.step_frame_res (clock : Nat → Int) (app : App) (p : Page) :
    (Page.step clock app p PageOp.frame).1.res = p.res := by
  simp only [Page.step]
  split <;> rfl

theorem Page.step_call (clock : Nat → Int) (app : App) (p : Page) (op : PageOp) (cb : Callback)
    (h : Ev.call cb ∈ (Page.step clock app p op).2) :
    ∃ op2, op = PageOp.res op2 ∧ Ev.call cb ∈ (Resources.step p.res op2).2 := by
  cases op with
  | frame =>
    simp only [Page.step] at h
    split at h
    · simp at h
    · have := Engine.main_isLoop _ _ _ _ _ h
      simp [Ev.isLoop] at this
  | res op2 =>
    refine ⟨op2, rfl, ?_⟩
    rcases (Page.perform_foldl clock app _ (Resources.step_events p.res op2) _ []).2.1 _ h
      with h1 | h1 | h1
    · simp at h1
    · exact h1
    · have := h1.1
      simp [Ev.isLoop] at this

theorem Page.step_isLoop (clock : Nat → Int) (app : App) (p : Page) (op : PageOp) (e : Ev)
    (h : e ∈ (Page.step clock app p op).2) (hl : e.isLoop = true) :
    (op = PageOp.frame ∧ p.frames ≠ 0)
      ∨ ∃ op2, op = PageOp.res op2 ∧ Ev.call Callback.init ∈ (Resources.step p.res op2).2 := by
  cases op with
  | frame =>
    refine Or.inl ⟨rfl, ?_⟩
    intro h0
    simp [Page.step, h0] at h
  | res op2 =>
    refine Or.inr ⟨op2, rfl, ?_⟩
    rcases (Page.perform_foldl clock app _ (Resources.step_events p.res op2) _ []).2.1 _ h
      with h1 | h1 | h1
    · simp at h1
    · rcases Resources.step_events p.res op2 e h1 with ⟨img, url, rfl⟩ | ⟨cb, rfl⟩ <;>
        simp [Ev.isLoop] at hl
    · exact h1.2

theorem Page.step_frames (clock : Nat → Int) (app : App) (p : Page) (op : PageOp)
    (h : (Page.step clock app p op).1.frames ≠ 0) :
    p.frames ≠ 0
      ∨ ∃ op2, op = PageOp.res op2 ∧ Ev.call Callback.init ∈ (Resources.step p.res op2).2 := by
  cases op with
  | frame =>
    left
    intro h0
    simp [Page.step, h0] at h
  | res op2 =>
    by_cases hf : (Page.step clock app p (PageOp.res op2)).1.frames = p.frames
    · left
      rw [← hf]
      exact h
    · right
      exact ⟨op2, rfl,
        (Page.perform_foldl clock app _ (Resources.step_events p.res op2) _ []).2.2 hf⟩

/-- What starts the loop (a call of `init`, a frame already requested) implies
that the cache is ready, so that the identifiers `us`, keys of the cache, are
loaded; and this is kept by every step. -/
theorem Page.step_started (clock : Nat → Int) (app : App) (us : List Url) (p : Page)
    (op : PageOp) (hk : ∀ u ∈ us, u ∈ p.res.keys)
    (hp : p.frames ≠ 0 → ∀ u ∈ us, ∃ img, p.res.get u = Value.slot (Slot.image img)) :
    (∀ u ∈ us, u ∈ (Page.step clock app p op).1.res.keys)
    ∧ (((Page.step clock app p op).1.frames ≠ 0
          ∨ ∃ e ∈ (Page.step clock app p op).2, e = Ev.call Callback.init ∨ e.isLoop = true)
        → ∀ u ∈ us, ∃ img, (Page.step clock app p op).1.res.get u = Value.slot (Slot.image img))
    ∧ ((∀ u ∈ us, ∃ img, p.res.get u = Value.slot (Slot.image img))
        → ∀ u ∈ us, ∃ img, (Page.step clock app p op).1.res.get u = Value.slot (Slot.image img)) := by
  have hk2 : ∀ u ∈ us, u ∈ (Page.step clock app p op).1.res.keys := by
    intro u hu
    cases op with
    | frame => rw [Page.step_frame_res]; exact hk u hu
    | res op2 => rw [Page.step_res_res]; exact Resources.step_keys_mono u _ op2 (hk u hu)
  have hmono : (∀ u ∈ us, ∃ img, p.res.get u = Value.slot (Slot.image img))
      → ∀ u ∈ us, ∃ img, (Page.step clock app p op).1.res.get u = Value.slot (Slot.image img) := by
    intro hl u hu
    cases op with
    | frame => rw [Page.step_frame_res]; exact hl u hu
    | res op2 => rw [Page.step_res_res]; exact Resources.step_loaded_mono u _ op2 (hl u hu)
  have hinit : (∃ op2, op = PageOp.res op2
        ∧ Ev.call Callback.init ∈ (Resources.step p.res op2).2)
      → ∀ u ∈ us, ∃ img, (Page.step clock app p op).1.res.get u = Value.slot (Slot.image img) := by
    rintro ⟨op2, rfl, hc⟩ u hu
    have hr := (Resources.step_call_imp p.res op2 _ hc).2.1
    rw [← Page.step_res_res clock app] at hr
    exact Resources.loaded_of_isReady _ u (hk2 u hu) hr
  refine ⟨hk2, ?_, hmono⟩
  rintro (hf | ⟨e, he, rfl | hl⟩)
  · rcases Page.step_frames clock app p op hf with h | h
    · exact hmono (hp h)
    · exact hinit h
  · exact hinit (Page.step_call clock app p op _ he)
  · rcases Page.step_isLoop clock app p op e he hl with h | h
    · exact hmono (hp h.2)
    · exact hinit h

theorem Page.run_loaded_mono (clock : Nat → Int) (app : App) (us : List Url) (ops : List PageOp)
    (p : Page) (hk : ∀ u ∈ us, u ∈ p.res.keys)
    (hl : ∀ u ∈ us, ∃ img, p.res.get u = Value.slot (Slot.image img)) :
    ∀ u ∈ us, ∃ img, (Page.run clock app p ops).1.res.get u = Value.slot (Slot.image img) := by
  induction ops generalizing p with
  | nil => exact hl
  | cons op ops ih =>
    have hs := Page.step_started clock app us p op hk (fun _ => hl)
    exact ih _ hs.1 (hs.2.2 hl)

theorem Page.run_started (clock : Nat → Int) (app : App) (us : List Url) (ops : List PageOp)
    (p : Page) (hk : ∀ u ∈ us, u ∈ p.res.keys)
    (hp : p.frames ≠ 0 → ∀ u ∈ us, ∃ img, p.res.get u = Value.slot (Slot.image img))
    (e : Ev) (he : e ∈ (Page.run clock app p ops).2)
    (hl : e = Ev.call Callback.init ∨ e.isLoop = true) :
    ∀ u ∈ us, ∃ img, (Page.run clock app p ops).1.res.get u = Value.slot (Slot.image img) := by
  induction ops generalizing p with
  | nil => simp [Page.run] at he
  | cons op ops ih =>
    have hs := Page.step_started clock app us p op hk hp
    simp only [Page.run, List.mem_append] at he ⊢
    rcases he with he | he
    · exact Page.run_loaded_mono clock app us ops _ hs.1 (hs.2.1 (Or.inr ⟨e, he, hl⟩))
    · exact ih _ hs.1 (fun hf => hs.2.1 (Or.inl hf)) he

theorem Page.step_quiet (clock : Nat → Int) (app : App) (p : Page) (op : Op)
    (h : ∀ img, op ≠ Op.imgLoad img) (hf : p.frames = 0) :
    (Page.step clock app p (PageOp.res op)).1.frames = 0
    ∧ ∀ e ∈ (Page.step clock app p (PageOp.res op)).2,
        ¬ (e = Ev.call Callback.init ∨ e.isLoop = true) := by
  have hno : Ev.call Callback.init ∉ (Resources.step p.res op).2 :=
    Resources.step_no_call p.res op h _
  constructor
  · by_contra hne
    rcases Page.step_frames clock app p _ hne with h1 | ⟨op2, h2, h3⟩
    · exact h1 hf
    · cases h2; exact hno h3
  · rintro e he (rfl | hl)
    · obtain ⟨op2, h2, h3⟩ := Page.step_call clock app p _ _ he
      cases h2; exact hno h3
    · rcases Page.step_isLoop clock app p _ e he hl with h1 | ⟨op2, h2, h3⟩
      · cases h1.1
      · cases h2; exact hno h3

/-- A ready-callback is called only by the `load` event of an image in flight
after which `isReady()` is true and every entry of the cache holds an image. -/
theorem Page.step_call_only_when_ready (clock : Nat → Int) (app : App) (p : Page) (op : PageOp)
    (cb : Callback) (hc : Ev.call cb ∈ (Page.step clock app p op).2) :
    (∃ img, op = PageOp.res (Op.imgLoad img) ∧ (p.res.loading.lookup img).isSome = true)
    ∧ (Page.step clock app p op).1.res.isReady = true
    ∧ ∀ kv ∈ (Page.step clock app p op).1.res.resourceCache, ∃ i, kv.2 = Slot.image i := by
  obtain ⟨op2, rfl, h2⟩ := Page.step_call clock app p op cb hc
  obtain ⟨⟨img, rfl, hin⟩, hr, _⟩ := Resources.step_call_imp p.res op2 cb h2
  rw [← Page.step_res_res clock app] at hr
  exact ⟨⟨img, rfl, hin⟩, hr, (Resources.isReady_iff _).1 hr⟩

/-- After `load(us)` and `onReady(init)` on the empty cache, with no identifier of
`us` the name of a property of `Object.prototype`, a trace that contains a call
of `init` or a call of the loop ends in a state where every identifier of `us` is
loaded. -/
theorem Page.loop_starts_after_own_assets_loaded (clock : Nat → Int) (app : App)
    (us : List Url) (hown : ∀ u ∈ us, u ∉ objectPrototypeKeys) (rest : List PageOp) (e : Ev)
    (he : e ∈ (Page.run clock app {}
        (PageOp.res (Op.load (UrlOrArr.arr us))
          :: PageOp.res (Op.onReady Callback.init) :: rest)).2)
    (hl : e = Ev.call Callback.init ∨ e.isLoop = true) :
    ∀ u ∈ us, ∃ img,
      (Page.run clock app {}
        (PageOp.res (Op.load (UrlOrArr.arr us))
          :: PageOp.res (Op.onReady Callback.init) :: rest)).1.res.get u
        = Value.slot (Slot.image img) := by
  have q1 := Page.step_quiet clock app {} (Op.load (UrlOrArr.arr us))
    (fun img h => by cases h) rfl
  have q2 := Page.step_quiet clock app
    (Page.step clock app {} (PageOp.res (Op.load (UrlOrArr.arr us)))).1
    (Op.onReady Callback.init) (fun img h => by cases h) q1.1
  have hk1 : ∀ u ∈ us,
      u ∈ (Page.step clock app {} (PageOp.res (Op.load (UrlOrArr.arr us)))).1.res.keys := by
    intro u hu
    rw [Page.step_res_res]
    exact Resources.load_requested_mem_keys {} (UrlOrArr.arr us) u
      (by simpa [requested] using hu) (hown u hu)
  have hk2 := (Page.step_started clock app us _
    (PageOp.res (Op.onReady Callback.init)) hk1 (fun hf => absurd q1.1 hf)).1
  simp only [Page.run, List.mem_append] at he ⊢
  rcases he with he | he | he
  · exact absurd hl (q1.2 e he)
  · exact absurd hl (q2.2 e he)
  · exact Page.run_started clock app us rest _ hk2 (fun hf => absurd q2.1 hf) e he hl

/-! ## The claims about the cache -/

/-- C1, evaluated on the code: `load` of an identifier whose entry is still
Pending creates a second `Image` and starts a second fetch (the test
`resourceCache[url]` is falsy for `false`), and each of the two completions
stores its own image under the identifier, while `load` of a Loaded identifier
changes nothing. -/
theorem load_twice_before_completion_fetches_twice :
    (Resources.run {} [Op.load (UrlOrArr.url "images/char-boy.png")]).1.get "images/char-boy.png"
        = Value.slot Slot.pending
      ∧ (Resources.run {}
          [Op.load (UrlOrArr.url "images/char-boy.png"),
           Op.load (UrlOrArr.url "images/char-boy.png")]).2
        = [Ev.fetch 0 "images/char-boy.png", Ev.fetch 1 "images/char-boy.png"]
      ∧ (Resources.run {}
          [Op.load (UrlOrArr.url "images/char-boy.png"),
           Op.load (UrlOrArr.url "images/char-boy.png"),
           Op.imgLoad 0]).1.get "images/char-boy.png"
        = Value.slot (Slot.image 0)
      ∧ (Resources.run {}
          [Op.load (UrlOrArr.url "images/char-boy.png"),
           Op.load (UrlOrArr.url "images/char-boy.png"),
           Op.imgLoad 0,
           Op.imgLoad 1]).1.get "images/char-boy.png"
        = Value.slot (Slot.image 1)
      ∧ (Resources.run {}
          [Op.load (UrlOrArr.url "images/char-boy.png"),
           Op.imgLoad 0,
           Op.load (UrlOrArr.url "images/char-boy.png")]).2
        = [Ev.fetch 0 "images/char-boy.png"] := by
  decide

/-- C2, evaluated on the code: a callback registered once is invoked at the
completion of the first image and again at the completion of an image loaded
afterwards; on the page of `engine.js`, once its five assets have loaded `init`
has run, and the load of one more image makes the cache call `init` a second
time, which requests a second animation frame beside the first one. -/
theorem init_invoked_again_by_later_load :
    (Resources.run {}
        [Op.load (UrlOrArr.url "a.png"), Op.onReady (Callback.other 0), Op.imgLoad 0,
         Op.load (UrlOrArr.url "b.png"), Op.imgLoad 1]).2
      = [Ev.fetch 0 "a.png", Ev.call (Callback.other 0),
         Ev.fetch 1 "b.png", Ev.call (Callback.other 0)]
    ∧ (Page.run (fun n => 1000 + 16 * (n : Int)) { allEnemies := [], player := 0 } {}
        (Engine.boot ++
          [PageOp.res (Op.imgLoad 0), PageOp.res (Op.imgLoad 1), PageOp.res (Op.imgLoad 2),
           PageOp.res (Op.imgLoad 3), PageOp.res (Op.imgLoad 4)])).2.count
            (Ev.call Callback.init) = 1
    ∧ (Page.run (fun n => 1000 + 16 * (n : Int)) { allEnemies := [], player := 0 } {}
        (Engine.boot ++
          [PageOp.res (Op.imgLoad 0), PageOp.res (Op.imgLoad 1), PageOp.res (Op.imgLoad 2),
           PageOp.res (Op.imgLoad 3), PageOp.res (Op.imgLoad 4),
           PageOp.res (Op.load (UrlOrArr.url "images/Star.png")),
           PageOp.res (Op.imgLoad 5)])).2.count (Ev.call Callback.init) = 2
    ∧ (Page.run (fun n => 1000 + 16 * (n : Int)) { allEnemies := [], player := 0 } {}
        (Engine.boot ++
          [PageOp.res (Op.imgLoad 0), PageOp.res (Op.imgLoad 1), PageOp.res (Op.imgLoad 2),
           PageOp.res (Op.imgLoad 3), PageOp.res (Op.imgLoad 4),
           PageOp.res (Op.load (UrlOrArr.url "images/Star.png")),
           PageOp.res (Op.imgLoad 5)])).1.frames = 2 := by
  decide

/-- C9: `onReady(cb)` appends `cb` to the registry, makes no call and leaves
the cache, the images and every other callback as they were, whether or not the
cache is ready; and as long as no load event follows, no callback is invoked. -/
theorem onReady_appends_and_invokes_nothing
    (r : Resources) (cb : Callback) (ops : List Op) (h : ∀ img, Op.imgLoad img ∉ ops) :
    r.step (Op.onReady cb) = ({ r with readyCallbacks := r.readyCallbacks ++ [cb] }, [])
    ∧ (r.step (Op.onReady cb)).1.resourceCache = r.resourceCache
    ∧ ∀ f, Ev.call f ∉ (r.run (Op.onReady cb :: ops)).2 := by
  refine ⟨rfl, rfl, fun f => ?_⟩
  apply Resources.run_no_call
  intro img hm
  rcases List.mem_cons.1 hm with e | e
  · cases e
  · exact h img e

/-- C9 at a ready cache: the empty cache is ready, `onReady` registers the
callback, and the loads that follow do not invoke it. -/
theorem onReady_appends_and_invokes_nothing_witness :
    (∀ img, Op.imgLoad img ∉ [Op.load (UrlOrArr.url "a.png")])
    ∧ Resources.isReady {} = true
    ∧ (Resources.step {} (Op.onReady Callback.init)
        = ({ ({} : Resources) with readyCallbacks := [] ++ [Callback.init] }, [])
      ∧ (Resources.step {} (Op.onReady Callback.init)).1.resourceCache = []
      ∧ ∀ f, Ev.call f ∉
          (Resources.run {} (Op.onReady Callback.init :: [Op.load (UrlOrArr.url "a.png")])).2) :=
  ⟨by simp, by decide,
   onReady_appends_and_invokes_nothing {} Callback.init [Op.load (UrlOrArr.url "a.png")]
     (by simp)⟩

/-- C3: in every state reached from the empty cache, `isReady()` is true
exactly when every entry of the cache holds an image, which is exactly when no
identifier passed to `load` so far reads as Pending; every entry of the cache
is an identifier passed to `load`, and an identifier passed to `load` that is
not the name of a property of `Object.prototype` has an entry, so that among
those `isReady()` is true exactly when each reads as an image; the empty cache
is ready.  (`isReady` only reads the state: it is a function of it.) -/
theorem isReady_iff_all_loaded (ops : List Op) :
    ((Resources.run {} ops).1.isReady = true
        ↔ ∀ kv ∈ (Resources.run {} ops).1.resourceCache, ∃ img, kv.2 = Slot.image img)
    ∧ ((Resources.run {} ops).1.isReady = true
        ↔ ∀ u ∈ requested ops, (Resources.run {} ops).1.get u ≠ Value.slot Slot.pending)
    ∧ ((Resources.run {} ops).1.isReady = false
        ↔ ∃ u ∈ requested ops, (Resources.run {} ops).1.get u = Value.slot Slot.pending)
    ∧ (∀ kv ∈ (Resources.run {} ops).1.resourceCache, kv.1 ∈ requested ops)
    ∧ ((Resources.run {} ops).1.isReady = true
        ↔ ∀ u ∈ requested ops, u ∉ objectPrototypeKeys →
            ∃ img, (Resources.run {} ops).1.get u = Value.slot (Slot.image img))
    ∧ Resources.isReady {} = true := by
  have hw := Resources.run_wellFormed {} ops Resources.wellFormed_empty
  have hreq : ∀ kv ∈ (Resources.run {} ops).1.resourceCache, kv.1 ∈ requested ops := by
    intro kv hkv
    have := Resources.run_keys_subset {} ops Resources.wellFormed_empty kv.1
      (List.mem_map.2 ⟨kv, hkv, rfl⟩)
    simpa [Resources.keys] using this
  have hget : ∀ kv ∈ (Resources.run {} ops).1.resourceCache,
      (Resources.run {} ops).1.get kv.1 = Value.slot kv.2 := by
    intro kv hkv
    exact read_of_lookup _ _ _ (lookup_of_mem_nodup _ kv.1 kv.2 hw.1 hkv)
  have hfalse : (Resources.run {} ops).1.isReady = false
      ↔ ∃ u ∈ requested ops, (Resources.run {} ops).1.get u = Value.slot Slot.pending := by
    rw [Resources.isReady_false_iff]
    constructor
    · rintro ⟨kv, hkv, hp⟩
      refine ⟨kv.1, hreq kv hkv, ?_⟩
      rw [hget kv hkv, hp]
    · rintro ⟨u, _, hp⟩
      exact ⟨(u, Slot.pending), mem_of_lookup _ _ _ ((read_eq_slot_iff _ _ _).1 hp), rfl⟩
  refine ⟨Resources.isReady_iff _, ?_, hfalse, hreq, ?_, rfl⟩
  · rw [← Bool.not_eq_false, hfalse]
    push_neg
    rfl
  · rw [Resources.isReady_iff]
    constructor
    · intro h u hu hown
      have hu2 := Resources.run_requested_mem_keys {} ops u hu hown
      obtain ⟨kv, hkv, rfl⟩ := List.mem_map.1 hu2
      obtain ⟨img, hi⟩ := h kv hkv
      exact ⟨img, by rw [hget kv hkv, hi]⟩
    · intro h kv hkv
      by_cases hown : kv.1 ∈ objectPrototypeKeys
      · cases hv : kv.2 with
        | image img => exact ⟨img, rfl⟩
        | pending =>
          exfalso
          exact Resources.no_inherited_key {} ops Resources.wellFormed_empty
            (by simp [Resources.keys]) kv.1 hown (List.mem_map.2 ⟨kv, hkv, rfl⟩)
      · obtain ⟨img, hi⟩ := h kv.1 (hreq kv hkv) hown
        rw [hget kv hkv] at hi
        exact ⟨img, by injection hi⟩

/-- C10: the `load` event of an image in flight, requested as `url`, stores the
image under `url` and changes no other entry and no callback; if every entry
then holds an image, the callbacks registered so far are invoked once each, in
registration order, and nothing else is called; if an entry is still Pending,
nothing is called. -/
theorem load_completion_stores_then_notifies
    (r : Resources) (img : Nat) (url : Url) (h : r.loading.lookup img = some url) :
    (r.step (Op.imgLoad img)).1.resourceCache = assign r.resourceCache url (Slot.image img)
    ∧ (r.step (Op.imgLoad img)).1.get url = Value.slot (Slot.image img)
    ∧ (∀ u, u ≠ url → (r.step (Op.imgLoad img)).1.get u = r.get u)
    ∧ (r.step (Op.imgLoad img)).1.readyCallbacks = r.readyCallbacks
    ∧ ((∀ kv ∈ (r.step (Op.imgLoad img)).1.resourceCache, ∃ i, kv.2 = Slot.image i)
        → (r.step (Op.imgLoad img)).2 = r.readyCallbacks.map Ev.call)
    ∧ ((∃ kv ∈ (r.step (Op.imgLoad img)).1.resourceCache, kv.2 = Slot.pending)
        → (r.step (Op.imgLoad img)).2 = []) := by
  have hs := Resources.step_imgLoad_of_loading r img url h
  have h1 : (r.step (Op.imgLoad img)).1.resourceCache
      = assign r.resourceCache url (Slot.image img) := by
    rw [hs, Resources.onload_fst]
  have h2 : (r.step (Op.imgLoad img)).2
      = if (r.step (Op.imgLoad img)).1.isReady then r.readyCallbacks.map Ev.call else [] := by
    rw [hs, Resources.onload_snd]
  refine ⟨h1, ?_, ?_, ?_, ?_, ?_⟩
  · simp only [Resources.get, h1]
    exact read_assign_self _ _ _
  · intro u hu
    simp only [Resources.get, h1]
    exact read_assign_ne _ _ _ _ hu
  · rw [hs, Resources.onload_fst]
  · intro hall
    rw [h2, (Resources.isReady_iff _).2 hall]
    rfl
  · intro hp
    rw [h2, (Resources.isReady_false_iff _).2 hp]
    rfl

/-- C10 at a concrete cache: with `b.png` loaded and `a.png` in flight as image
0, its completion stores image 0 and invokes the two registered callbacks in
order. -/
theorem load_completion_stores_then_notifies_witness :
    Resources.sample.loading.lookup 0 = some "a.png"
    ∧ (Resources.sample.step (Op.imgLoad 0)).1.get "a.png" = Value.slot (Slot.image 0)
    ∧ (Resources.sample.step (Op.imgLoad 0)).2
        = [Ev.call Callback.init, Ev.call (Callback.other 1)] :=
  ⟨by decide,
   (load_completion_stores_then_notifies Resources.sample 0 "a.png" (by decide)).2.1,
   ((load_completion_stores_then_notifies Resources.sample 0 "a.png" (by decide)).2.2.2.2.1
      ((Resources.isReady_iff _).1 (by decide))).trans (by decide)⟩

/-! ## The claims about the game loop -/

/-- C5 as stated fails: with readings 1000 and 1016 the second `main` passes
to `update` the double nearest to 16/1000, which is
1152921504606847/72057594037927936 and not the rational 16/1000. -/
theorem dt_of_sixteen_ms_is_not_exact :
    (Engine.main { allEnemies := [7], player := 9 } {}
        (Engine.main { allEnemies := [7], player := 9 } {} {} 1000).1 1016).2
      = Engine.update { allEnemies := [7], player := 9 }
            (some (1152921504606847 / 72057594037927936))
          ++ Engine.render { allEnemies := [7], player := 9 } {} ++ [Ev.requestAnimationFrame]
    ∧ (Engine.main { allEnemies := [7], player := 9 } {}
        (Engine.main { allEnemies := [7], player := 9 } {} {} 1000).1 1016).2
      ≠ Engine.update { allEnemies := [7], player := 9 }
            (some (((1016 - 1000 : Int) : ℚ) / 1000))
          ++ Engine.render { allEnemies := [7], player := 9 } {} ++ [Ev.requestAnimationFrame] := by
  have hsub : fsub ((1016 : Int) : ℚ) ((1000 : Int) : ℚ) = 16 := by
    rw [fsub_intCast 1016 1000 (by norm_num)]
    norm_num
  have hdt : fdiv (fsub ((1016 : Int) : ℚ) ((1000 : Int) : ℚ)) 1000
      = 1152921504606847 / 72057594037927936 := by
    rw [hsub]
    exact roundDouble_sixteen_thousandths
  have hmain : (Engine.main { allEnemies := [7], player := 9 } {}
        (Engine.main { allEnemies := [7], player := 9 } {} {} 1000).1 1016).2
      = Engine.update { allEnemies := [7], player := 9 }
            (some (fdiv (fsub ((1016 : Int) : ℚ) ((1000 : Int) : ℚ)) 1000))
          ++ Engine.render { allEnemies := [7], player := 9 } {} ++ [Ev.requestAnimationFrame] :=
    rfl
  rw [hmain, hdt]
  refine ⟨rfl, ?_⟩
  intro h
  rw [Engine.update_eq, Engine.update_eq] at h
  simp only [List.map_cons, List.map_nil, List.cons_append, List.nil_append, List.cons.injEq,
    Ev.enemyUpdate.injEq, Option.some.injEq, true_and] at h
  norm_num at h

/-- C5, amended: `main` stores its own clock reading as `lastTime`, so of two
consecutive invocations of `main` with readings `T0` and `T1` the second passes
to `update` the quotient by 1000 of the difference `T1 - T0`, as doubles; and so
does the `main` that `init` calls, reading `T1` after `init` read `T0`.  That
number is within `|T1 - T0| / 1000 / 2^51` of `(T1 - T0) / 1000`; for readings
less than `2^53` milliseconds apart it is the double nearest to
`(T1 - T0) / 1000`, within `|T1 - T0| / 1000 / 2^53` of it. -/
theorem dt_is_rounded_elapsed_seconds
    (app : App) (res res2 : Resources) (s : Engine) (T0 T1 : Int) :
    (Engine.main app res s T0).1.lastTime = some T0
    ∧ (Engine.main app res2 (Engine.main app res s T0).1 T1).2
        = Engine.update app (some (fdiv (fsub T1 T0) 1000))
            ++ Engine.render app res2 ++ [Ev.requestAnimationFrame]
    ∧ (Engine.init app res s T0 T1).2
        = Engine.update app (some (fdiv (fsub T1 T0) 1000))
            ++ Engine.render app res ++ [Ev.requestAnimationFrame]
    ∧ (Engine.init app res s T0 T1).1.lastTime = some T1
    ∧ |fdiv (fsub T1 T0) 1000 - ((T1 - T0 : Int) : ℚ) / 1000|
        ≤ |((T1 - T0 : Int) : ℚ) / 1000| / 2 ^ 51
    ∧ (|T1 - T0| < 2 ^ 53 →
        fdiv (fsub T1 T0) 1000 = roundDouble (((T1 - T0 : Int) : ℚ) / 1000)
        ∧ |fdiv (fsub T1 T0) 1000 - ((T1 - T0 : Int) : ℚ) / 1000|
            ≤ |((T1 - T0 : Int) : ℚ) / 1000| / 2 ^ 53) := by
  refine ⟨rfl, rfl, rfl, rfl, abs_fdiv_fsub_sub_le T1 T0, ?_⟩
  intro h
  have hs := fsub_intCast T1 T0 h
  have hd : fdiv (fsub T1 T0) 1000 = roundDouble (((T1 - T0 : Int) : ℚ) / 1000) := by
    rw [hs]
    rfl
  refine ⟨hd, ?_⟩
  rw [hd]
  exact abs_roundDouble_sub_le _

/-- C5, amended, at the readings 1000 and 1016: they are less than `2^53`
apart, and the number passed is the double nearest to 16/1000. -/
theorem dt_is_rounded_elapsed_seconds_witness :
    |(1016 : Int) - 1000| < 2 ^ 53
    ∧ fdiv (fsub ((1016 : Int) : ℚ) ((1000 : Int) : ℚ)) 1000
        = roundDouble (((1016 - 1000 : Int) : ℚ) / 1000)
    ∧ |fdiv (fsub ((1016 : Int) : ℚ) ((1000 : Int) : ℚ)) 1000 - ((1016 - 1000 : Int) : ℚ) / 1000|
        ≤ |((1016 - 1000 : Int) : ℚ) / 1000| / 2 ^ 53 :=
  ⟨by decide,
   (dt_is_rounded_elapsed_seconds { allEnemies := [7], player := 9 } {} {} {} 1000 1016).2.2.2.2.2
     (by decide)⟩

/-- C6: the trace of one `render()` is the clear of the whole 505x606 surface,
then one draw for each cell in row-major order (row 0 with its columns 0 to 4,
then row 1, up to row 5), then `render()` of each enemy in registry order, then
`render()` of the player, and nothing else. -/
theorem render_trace_order (app : App) (res : Resources) :
    Engine.render app res
        = [Ev.clearRect 0 0 505 606]
          ++ cellsRowMajor.map
              (fun c => Ev.drawImage (res.get (rowTile c.1)) (c.2 * 101) (c.1 * 83))
          ++ app.allEnemies.map Ev.enemyRender
          ++ [Ev.playerRender app.player]
    ∧ cellsRowMajor
        = (List.range 6).flatMap (fun row => (List.range 5).map (fun col => (row, col)))
    ∧ canvasWidth = 505 ∧ canvasHeight = 606 := by
  refine ⟨?_, cellsRowMajor_eq, rfl, rfl⟩
  rw [Engine.render_eq]
  simp only [List.append_assoc]

/-- C7: the background draw calls of one `render()` are 30, one for each cell
(row, col) with row below 6 and col below 5 and no other, the cell (row, col)
drawn once at origin (col * 101, row * 83) with the cached image of the tile
of the row: water for row 0, stone for rows 1 to 3, grass for rows 4 and 5; the
first origin is (0, 0) and the last (404, 415). -/
theorem render_draws_the_grid (app : App) (res : Resources) :
    (Engine.render app res).filter Ev.isDraw
        = cellsRowMajor.map
            (fun c => Ev.drawImage (res.get (rowTile c.1)) (c.2 * 101) (c.1 * 83))
    ∧ ((Engine.render app res).filter Ev.isDraw).length = 30
    ∧ (∀ row col, (row, col) ∈ cellsRowMajor ↔ row < 6 ∧ col < 5)
    ∧ (∀ row col, row < 6 → col < 5 →
        ((Engine.render app res).filter Ev.isDraw).count
          (Ev.drawImage (res.get (rowTile row)) (col * 101) (row * 83)) = 1)
    ∧ rowTile 0 = "images/water-block.png"
    ∧ (∀ row, 1 ≤ row → row ≤ 3 → rowTile row = "images/stone-block.png")
    ∧ (∀ row, 4 ≤ row → rowTile row = "images/grass-block.png")
    ∧ ((Engine.render app res).filter Ev.isDraw).head?
        = some (Ev.drawImage (res.get "images/water-block.png") 0 0)
    ∧ ((Engine.render app res).filter Ev.isDraw).getLast?
        = some (Ev.drawImage (res.get "images/grass-block.png") 404 415) := by
  have hf := Engine.render_filter_isDraw app res
  refine ⟨hf, ?_, mem_cellsRowMajor, ?_, rfl, ?_, ?_, ?_, ?_⟩
  · rw [hf, List.length_map]; rfl
  · intro row col hr hc
    rw [hf]
    have hinj := drawImage_cell_injective res
    have := List.count_map_of_injective cellsRowMajor
      (fun c : Nat × Nat => Ev.drawImage (res.get (rowTile c.1)) (c.2 * 101) (c.1 * 83))
      hinj (row, col)
    simp only at this
    rw [this]
    exact List.count_eq_one_of_mem (by decide) ((mem_cellsRowMajor row col).2 ⟨hr, hc⟩)
  · intro row h1 h3
    have h0 : row ≠ 0 := by omega
    simp [rowTile, h0, h3]
  · intro row h4
    have h0 : row ≠ 0 := by omega
    have h3 : ¬ row ≤ 3 := by omega
    simp [rowTile, h0, h3]
  · rw [hf]; rfl
  · rw [hf]; rfl

/-- C8: `update(dt)` calls `update(dt)` on each enemy once, in registry order,
with exactly `dt`, then `update()` on the player once, and nothing else; the
trace of `main` is that of `update`, then that of `render` (which starts with
the clear), then the frame request, so every update call comes before the
clear and before every render call. -/
theorem update_calls_then_render (app : App) (res : Resources) (s : Engine) (now : Int)
    (dt : Option ℚ) :
    Engine.update app dt
        = app.allEnemies.map (fun enemy => Ev.enemyUpdate enemy dt)
          ++ [Ev.playerUpdate app.player]
    ∧ (Engine.main app res s now).2
        = Engine.update app (s.lastTime.map (fun lastTime => fdiv (fsub now lastTime) 1000))
          ++ Engine.render app res ++ [Ev.requestAnimationFrame]
    ∧ (∀ e ∈ Engine.update app dt, e.isUpdate = true ∧ e.isRender = false)
    ∧ (∀ e ∈ Engine.render app res, e.isRender = true ∧ e.isUpdate = false)
    ∧ (Engine.render app res).head? = some (Ev.clearRect 0 0 canvasWidth canvasHeight) := by
  refine ⟨Engine.update_eq app dt, rfl, ?_, ?_, ?_⟩
  · intro e he
    rw [Engine.update_eq] at he
    simp only [List.mem_append, List.mem_map, List.mem_singleton] at he
    rcases he with ⟨x, _, rfl⟩ | rfl <;> exact ⟨rfl, rfl⟩
  · intro e he
    rw [Engine.render_eq] at he
    simp only [List.mem_append, List.mem_map, List.mem_singleton] at he
    rcases he with (rfl | ⟨c, _, rfl⟩) | (⟨x, _, rfl⟩ | rfl) <;> exact ⟨rfl, rfl⟩
  · rw [Engine.render_eq]; rfl

/-! ## The claim about the start of the loop -/

/-- C4, evaluated on the code: after `load(["constructor", "b.png", "c.png"])`
and `onReady(init)` on the empty cache, `_load` reads the inherited
`Object.prototype.constructor` as a cached image, so it fetches two images only;
the completion of the second of them calls `init`, the loop runs (updates,
draws, a frame request), and the identifier `constructor` is not loaded, then or
ever. -/
theorem init_called_with_an_asset_never_loaded :
    (Page.run (fun n => 1000 + 16 * (n : Int)) { allEnemies := [7], player := 9 } {}
        [PageOp.res (Op.load (UrlOrArr.arr ["constructor", "b.png", "c.png"])),
         PageOp.res (Op.onReady Callback.init),
         PageOp.res (Op.imgLoad 0), PageOp.res (Op.imgLoad 1)]).2.filter
          (fun e => !e.isLoop)
      = [Ev.fetch 0 "b.png", Ev.fetch 1 "c.png", Ev.call Callback.init]
    ∧ ((Page.run (fun n => 1000 + 16 * (n : Int)) { allEnemies := [7], player := 9 } {}
        [PageOp.res (Op.load (UrlOrArr.arr ["constructor", "b.png", "c.png"])),
         PageOp.res (Op.onReady Callback.init),
         PageOp.res (Op.imgLoad 0), PageOp.res (Op.imgLoad 1)]).2.filter
          (fun e => e.isUpdate)).length = 2
    ∧ ((Page.run (fun n => 1000 + 16 * (n : Int)) { allEnemies := [7], player := 9 } {}
        [PageOp.res (Op.load (UrlOrArr.arr ["constructor", "b.png", "c.png"])),
         PageOp.res (Op.onReady Callback.init),
         PageOp.res (Op.imgLoad 0), PageOp.res (Op.imgLoad 1)]).2.filter
          (fun e => e.isRender)).length = 33
    ∧ (Page.run (fun n => 1000 + 16 * (n : Int)) { allEnemies := [7], player := 9 } {}
        [PageOp.res (Op.load (UrlOrArr.arr ["constructor", "b.png", "c.png"])),
         PageOp.res (Op.onReady Callback.init),
         PageOp.res (Op.imgLoad 0), PageOp.res (Op.imgLoad 1)]).1.res.resourceCache
      = [("b.png", Slot.image 0), ("c.png", Slot.image 1)]
    ∧ (Page.run (fun n => 1000 + 16 * (n : Int)) { allEnemies := [7], player := 9 } {}
        [PageOp.res (Op.load (UrlOrArr.arr ["constructor", "b.png", "c.png"])),
         PageOp.res (Op.onReady Callback.init),
         PageOp.res (Op.imgLoad 0), PageOp.res (Op.imgLoad 1)]).1.res.get "constructor"
      = Value.inherited "constructor"
    ∧ (Page.run (fun n => 1000 + 16 * (n : Int)) { allEnemies := [7], player := 9 } {}
        [PageOp.res (Op.load (UrlOrArr.arr ["constructor", "b.png", "c.png"])),
         PageOp.res (Op.onReady Callback.init),
         PageOp.res (Op.imgLoad 0), PageOp.res (Op.imgLoad 1)]).1.res.loading = [] := by
  decide
end Arcade
